import Mathlib

/-!
# Verification of the poggers prompt compiler

Shallow embedding of the poggers prompt-compilation library
(`builder_default.go` of `markettools-ai/poggers`) and proofs about it.

The embedding works at the level of `List Char` (the Go code indexes bytes;
all inputs of interest here are ASCII, where byte-level and char-level
scanning coincide).  The scanner `scanLoop` mirrors the single-pass loop of
`processPrompt` branch by branch; positions where the Go code would index
`prompt[i]` with `i = len(prompt)` (a runtime panic) are modelled by the
distinguished error value `PErr.oob`.
-/

namespace Poggers

/-- Mirrors `Message` of `builder.go`: a role-tagged message. -/
structure Message where
  role : String
  content : String
  deriving DecidableEq, Repr

/-- Mirrors `Prompt` of `builder.go`: a named document. -/
structure Prompt where
  name : String
  text : String
  deriving DecidableEq, Repr

/-- Scan outcomes of `processPrompt`.  The first four constructors mirror the
four `fmt.Errorf` returns of the Go scanner; `oob` marks a position where the
Go code would read `prompt[i]` out of bounds (a runtime panic, not a returned
error). -/
inductive PErr where
  /-- the error "found tabulated text without a label" -/
  | danglingTab : PErr
  /-- the error "expected new line, found %q" -/
  | expectedNewline : Char → PErr
  /-- the error "expected colon or equals sign, found %q" -/
  | expectedColonOrEq : Char → PErr
  /-- "expected label or constant, found nothing" -/
  | expectedLabel : PErr
  /-- out-of-bounds read of the input: the Go code panics here -/
  | oob : PErr
  deriving DecidableEq, Repr

/-- Word characters of the scanner: `a-z`, `A-Z`, `0-9`, `_`, `-`
(the condition repeated throughout `processPrompt`, and the character class
of the annotation regex `@[A-Za-z0-9_-]+`). -/
def isWordChar (c : Char) : Bool :=
  ('a' ≤ c && c ≤ 'z') || ('A' ≤ c && c ≤ 'Z') || ('0' ≤ c && c ≤ '9')
    || c = '_' || c = '-'

/-- The space-skipping condition `prompt[i] == '\t' || prompt[i] == ' '`. -/
def isSpaceTab (c : Char) : Bool := c = '\t' || c = ' '

/-- The whitespace-run condition inside structured literals:
`prompt[i] == ' ' || prompt[i] == '\n' || prompt[i] == '\t'`. -/
def isObjWs (c : Char) : Bool := c = ' ' || c = '\n' || c = '\t'

/-- Model of an inner `for p(prompt[i]) { i++ }` loop of the Go scanner:
consume characters while `p` holds.  Returns `none` when the loop would run
past the end of the input (Go evaluates `prompt[i]` at `i = len(prompt)` and
panics); otherwise returns the consumed prefix and the remaining suffix,
whose head is the first character violating `p`. -/
def spanWhileP (p : Char → Bool) : List Char → Option (List Char × List Char)
  | [] => none
  | c :: cs =>
    if p c then
      match spanWhileP p cs with
      | none => none
      | some (t, r) => some (c :: t, r)
    else
      some ([], c :: cs)

/-- State of the `processPrompt` loop: the local variables
`stack`, `label`, `isTabulated`, the `strings.Builder` accumulator
`result` and the `messages` slice. -/
structure ScanState where
  stack : Int
  label : String
  isTab : Bool
  acc : List Char
  msgs : List Message
  deriving DecidableEq, Repr

/-- The `// Reset label` block at the top of the non-tabulated branch, which
is also the post-loop `// Last label` flush: if a label is open, append the
accumulated message and reset the accumulator and label. -/
def flushLabel (st : ScanState) : ScanState :=
  if st.label ≠ "" then
    { st with msgs := st.msgs ++ [⟨st.label, String.mk st.acc⟩],
              acc := [], label := "" }
  else st

/-- The value of `messages` when the loop exits (including the
`// Last label` flush). -/
def finishScan (st : ScanState) : List Message :=
  (flushLabel st).msgs

/-- The `// New line` branch of the `processPrompt` loop
(`builder_default.go` lines 171–210).  The continuation `k` is the rest of
the loop; the newline itself has already been consumed (`next(false)`), and
`isTabulated` has been reset. -/
def newlineStep (k : ScanState → List Char → Except PErr (List Message))
    (st : ScanState) (cs : List Char) : Except PErr (List Message) :=
  match cs with
  | [] =>
    -- `if i == len(prompt) { continue }`: the loop then exits
    k { st with isTab := false } []
  | c1 :: cs1 =>
    match c1, cs1 with
    | '/', '/' :: _ =>
      -- `// Comment`: skip to the newline (exclusive)
      match spanWhileP (fun x => ¬ x = '\n') (c1 :: cs1) with
      | none => .error .oob
      | some (_, rest) => k { st with isTab := false } rest
    | _, _ =>
      if isSpaceTab c1 then
        -- `// Check for tabulation`
        match spanWhileP isSpaceTab (c1 :: cs1) with
        | none => .error .oob
        | some (_, rest) =>
          match rest with
          | [] => .error .oob
          | r :: rs =>
            if r = '\n' then
              k { st with isTab := true } (r :: rs)
            else
              match r, rs with
              | '/', '/' :: _ =>
                match spanWhileP (fun x => ¬ x = '\n') (r :: rs) with
                | none => .error .oob
                | some (_, rest2) =>
                  k { st with isTab := true } rest2
              | _, _ =>
                if st.label = "" then .error .danglingTab
                else k { st with isTab := true } (r :: rs)
      else
        k { st with isTab := false } (c1 :: cs1)

/-- The `// Labels or Constants` branch of the `processPrompt` loop
(`builder_default.go` lines 211–290), entered on a non-newline character
outside tabulated mode.  The previous section has already been flushed.

The Go local `constants` map is written in the `=` sub-branch and never
read (`processPrompt` discards it); the sub-branch below consumes exactly
the same characters and omits the dead write.  The comment check after the
value loop is unreachable (the loop only stops at a newline) and the value
loop condition degenerates to `prompt[i] != '\n'`. -/
def labelStep (k : ScanState → List Char → Except PErr (List Message))
    (st : ScanState) (c : Char) (cs : List Char) : Except PErr (List Message) :=
  if isWordChar c then
    match spanWhileP isWordChar (c :: cs) with
    | none => .error .oob
    | some (word, rest) =>
      match rest with
      | [] => .error .oob
      | r :: rs =>
        if r = ':' then
          -- label := word; skip the colon; skip spaces
          match spanWhileP isSpaceTab rs with
          | none => .error .oob
          | some (_, rest2) =>
            match rest2 with
            | [] => .error .oob
            | r2 :: rs2 =>
              match r2, rs2 with
              | '/', '/' :: _ =>
                match spanWhileP (fun x => ¬ x = '\n') (r2 :: rs2) with
                | none => .error .oob
                | some (_, rest3) =>
                  k { st with label := String.mk word } rest3
              | _, _ =>
                if r2 = '\n' then
                  k { st with label := String.mk word } (r2 :: rs2)
                else .error (.expectedNewline r2)
        else
          -- skip spaces, then check for an equals sign
          match spanWhileP isSpaceTab (r :: rs) with
          | none => .error .oob
          | some (_, rest2) =>
            match rest2 with
            | [] => .error .oob
            | r2 :: rs2 =>
              if r2 = '=' then
                match spanWhileP isSpaceTab rs2 with
                | none => .error .oob
                | some (_, rest3) =>
                  match spanWhileP (fun x => ¬ x = '\n') rest3 with
                  | none => .error .oob
                  | some (_, rest4) => k st rest4
              else .error (.expectedColonOrEq r2)
  else .error .expectedLabel

/-- The `// Brackets`, `// Objects` and `// Other characters` branches of
the `processPrompt` loop (`builder_default.go` lines 292–343), entered on a
non-newline character in tabulated mode. -/
def bodyStep (k : ScanState → List Char → Except PErr (List Message))
    (st : ScanState) (c : Char) (cs : List Char) : Except PErr (List Message) :=
  if c = '{' ∨ c = '[' then
    k { st with stack := st.stack + 1, acc := st.acc ++ [c] } cs
  else if c = '}' ∨ c = ']' then
    k { st with stack := st.stack - 1, acc := st.acc ++ [c] } cs
  else if st.stack > 0 then
    -- `// Objects`
    if c = '"' then
      -- `// Strings`: copy verbatim to the closing quote; if there is
      -- none, the Go loop indexes past the end of the input
      match spanWhileP (fun x => ¬ x = '"') cs with
      | none => .error .oob
      | some (body, rest) =>
        match rest with
        | [] => .error .oob
        | q :: rs =>
          k { st with acc := st.acc ++ c :: body ++ [q] } rs
    else if c = '#' then
      -- `// AI Comments`: copy verbatim including the newline
      match spanWhileP (fun x => ¬ x = '\n') cs with
      | none => .error .oob
      | some (body, rest) =>
        match rest with
        | [] => .error .oob
        | nl :: rs =>
          k { st with acc := st.acc ++ c :: body ++ [nl] } rs
    else
      match c, cs with
      | '/', '/' :: _ =>
        -- `// Comment`: skip to the newline without writing
        match spanWhileP (fun x => ¬ x = '\n') (c :: cs) with
        | none => .error .oob
        | some (_, rest) => k st rest
      | _, _ =>
        if isObjWs c then
          -- `// Spaces`: skip the whitespace run (spaces, tabs and
          -- newlines); if it reaches the end of input the Go loop
          -- indexes past the end
          match spanWhileP isObjWs cs with
          | none => .error .oob
          | some (_, rest) => k st rest
        else
          k { st with acc := st.acc ++ [c] } cs
  else
    -- `// Other characters`
    k { st with acc := st.acc ++ [c] } cs

/-- The main loop of `processPrompt` (`builder_default.go` lines 163–343):
dispatch on the current character and `isTabulated` into the three branch
handlers.  The first argument is fuel; every loop iteration consumes at
least one character, so fuel `len + 1` is always sufficient (the fuel-0
case is unreachable for the wrappers below, see `scanLoop_fuel_irrel`). -/
def scanLoop : Nat → ScanState → List Char → Except PErr (List Message)
  | _, st, [] => .ok (finishScan st)
  | 0, _, _ :: _ => .error .oob
  | n + 1, st, c :: cs =>
    if c = '\n' then newlineStep (scanLoop n) st cs
    else if st.isTab = false then labelStep (scanLoop n) (flushLabel st) c cs
    else bodyStep (scanLoop n) st c cs

/-- Initial state of the scan. -/
def initState : ScanState :=
  { stack := 0, label := "", isTab := false, acc := [], msgs := [] }

/-- Function `processPrompt` on a character list: wrap the input in a leading and
trailing newline (`prompt = "\n" + prompt + "\n"`) and run the scan. -/
def processPromptL (l : List Char) : Except PErr (List Message) :=
  scanLoop (l.length + 3) initState ('\n' :: l ++ ['\n'])

/-- Function `processPrompt` of `builder_default.go` (lines 155–350). -/
def processPrompt (s : String) : Except PErr (List Message) :=
  processPromptL s.data

/-! ## The annotation store -/

/-- The `annotations map[string]string` field of `promptBuilder`, modelled as
an association list (later bindings shadowed by earlier ones). -/
abbrev Store := List (String × String)

/-- Go map read `annotations[id]`: the stored value, or the zero value `""`
when the key is absent. -/
def storeGet (σ : Store) (id : String) : String :=
  (σ.lookup id).getD ""

/-- Go `delete(annotations, id)`: remove the binding of `id`. -/
def storeDel : Store → String → Store
  | [], _ => []
  | q :: rest, id => if q.1 = id then storeDel rest id else q :: storeDel rest id

/-- Go map write `annotations[id] = v`. -/
def storeSet (σ : Store) (id v : String) : Store :=
  (id, v) :: storeDel σ id

/-- Function `getAnnotation` of `builder_default.go` (lines 148–153): a locked map
read, returning the empty string for unknown identifiers (the lock has no
observable effect in this sequential model). -/
def getAnnotationFn (σ : Store) (id : String) : String := storeGet σ id

/-! ## The annotation-replacement pass

`Process` (lines 378–384) rewrites each message content with
`regexp.MustCompile("@[A-Za-z0-9_-]+").ReplaceAllStringFunc`, replacing every
(leftmost, maximal, non-overlapping) match `@id` by the stored annotation value.
Replacement text is not rescanned.  The scan below is the direct
transliteration of that semantics: at `@` followed by at least one word
character, consume the maximal word run and emit the looked-up value;
otherwise copy the character. -/

/-- One fuel-indexed pass of the replacement scan (fuel `len + 1` always
suffices, see `replLoop_fuel_irrel`). -/
def replLoop : Nat → Store → List Char → List Char
  | 0, _, l => l
  | _ + 1, _, [] => []
  | n + 1, σ, c :: cs =>
    if c = '@' then
      match cs.takeWhile isWordChar, cs.dropWhile isWordChar with
      | [], _ => '@' :: replLoop n σ cs
      | w, rest =>
        (getAnnotationFn σ (String.mk w)).data ++ replLoop n σ rest
    else
      c :: replLoop n σ cs

/-- The annotation-replacement pass on a character list. -/
def replList (σ : Store) (l : List Char) : List Char :=
  replLoop (l.length + 1) σ l

/-- The annotation-replacement pass of `Process`
(`builder_default.go` lines 378–384). -/
def replaceAnnotations (σ : Store) (s : String) : String :=
  String.mk (replList σ s.data)

/-- Function `Process` of `builder_default.go` (lines 352–395) with both callbacks
nil (their default): scan the prompt, then replace annotations in every
message content.  The constants regex sweep (lines 360–365) only feeds
`onBeforeProcess` and is dead when that callback is nil. -/
def ProcessPure (σ : Store) (prompt : String) : Except PErr (List Message) :=
  (processPrompt prompt).map
    (List.map fun m => { m with content := replaceAnnotations σ m.content })

/-! ## SetAnnotation -/

/-- A Go `interface{}` value passed to `SetAnnotation`: a string, an
integer, or a boolean (`nil` is modelled by `Option.none` at the call). -/
inductive GoVal where
  | str : String → GoVal
  | int : Int → GoVal
  | bool : Bool → GoVal
  deriving DecidableEq, Repr

/-- Escaping in `encoding/json` of one character inside a marshalled string:
quote and backslash are backslash-escaped, `\n`/`\r`/`\t` use their short
forms, other control characters and the HTML-escaped `<`, `>`, `&` use
`\u00XX` form. -/
def jsonEscapeChar (c : Char) : List Char :=
  if c = '"' then ['\\', '"']
  else if c = '\\' then ['\\', '\\']
  else if c = '\n' then ['\\', 'n']
  else if c = '\r' then ['\\', 'r']
  else if c = '\t' then ['\\', 't']
  else if c = '<' then "\\u003c".data
  else if c = '>' then "\\u003e".data
  else if c = '&' then "\\u0026".data
  else if c.toNat < 0x20 then
    ('\\' :: 'u' :: '0' :: '0' :: [Nat.digitChar (c.toNat / 16), Nat.digitChar (c.toNat % 16)])
  else [c]

/-- Result of `json.Marshal` on a Go string: the double-quoted, escaped form. -/
def jsonQuote (s : String) : String :=
  String.mk ('"' :: (s.data.flatMap jsonEscapeChar) ++ ['"'])

/-- Result of `json.Marshal` on the modelled values.  It never fails on strings,
integers or booleans, so the `fmt.Sprintf("%v", value)` fallback of
`SetAnnotation` is dead for these values (mirrored in `setAnnotationFn`). -/
def jsonMarshal : GoVal → Option String
  | .str s => some (jsonQuote s)
  | .int n => some (toString n)
  | .bool b => some (if b then "true" else "false")

/-- Go `fmt.Sprintf("%v", value)`, the fallback used when `json.Marshal`
errors. -/
def goFormat : GoVal → String
  | .str s => s
  | .int n => toString n
  | .bool b => if b then "true" else "false"

/-- Function `SetAnnotation` of `builder_default.go` (lines 397–410): `nil` deletes
the entry; otherwise the JSON encoding of the value is stored (with the
`%v` fallback if marshalling errored). -/
def setAnnotationFn (σ : Store) (id : String) : Option GoVal → Store
  | none => storeDel σ id
  | some v =>
    match jsonMarshal v with
    | none => storeSet σ id (goFormat v)
    | some j => storeSet σ id j

/-! ## Batch grouping and naming -/

/-- Go `strings.TrimSuffix`: drop the suffix if present, else identity. -/
def trimSuffix (s suffix : String) : String :=
  if suffix.data.isSuffixOf s.data then
    String.mk (s.data.take (s.data.length - suffix.data.length))
  else s

/-- The name under which `ProcessBatch` (line 112) processes a document and
hands it to the `Process` callbacks: the document name with only the
`.prompt` suffix removed. -/
def docCallbackName (name : String) : String := trimSuffix name ".prompt"

/-- Decides `'0' ≤ c ≤ '9'`. -/
def isDigit (c : Char) : Bool := '0' ≤ c && c ≤ '9'

/-- Go `strconv.Atoi`: an optional sign followed by at least one digit, and
nothing else; everything beyond that is a parse error (`none`). -/
def atoi (s : String) : Option Int :=
  match s.data with
  | [] => none
  | c :: cs =>
    let (neg, digits) :=
      if c = '-' then (true, cs)
      else if c = '+' then (false, cs)
      else (false, c :: cs)
    if digits = [] ∨ ¬ digits.all isDigit then none
    else
      let n : Nat := digits.foldl (fun a c => a * 10 + (c.toNat - '0'.toNat)) 0
      some (if neg then -(n : Int) else (n : Int))

/-- Go `strings.Split(name, "_")[0]`: the part before the first `_`
(the whole string when there is none). -/
def beforeUnderscore (s : String) : String :=
  String.mk (s.data.takeWhile (fun c => ¬ c = '_'))

/-- Errors of the batch-grouping loop: `indexOutOfRange` marks
`batches[prefix]` indexing outside the slice, which panics in Go. -/
inductive GroupErr where
  | indexOutOfRange : GroupErr
  deriving DecidableEq, Repr

/-- One iteration of the grouping loop of `ProcessBatchFromDir`
(`builder_default.go` lines 78–97) on a (non-directory, readable) file:
parse the numeric prefix (skipping the file if it does not parse), append
one empty tier if `len(batches) <= prefix`, then append the file to
`batches[prefix]` — an out-of-range index if `prefix` is still not a valid
index, which panics in Go. -/
def groupStep (batches : List (List Prompt)) (file : String × String) :
    Except GroupErr (List (List Prompt)) :=
  match atoi (beforeUnderscore file.1) with
  | none => .ok batches
  | some p =>
    let batches := if (batches.length : Int) ≤ p then batches ++ [[]] else batches
    if h : 0 ≤ p ∧ p.toNat < batches.length then
      .ok (batches.set p.toNat
        (batches.get ⟨p.toNat, h.2⟩ ++ [⟨file.1, file.2⟩]))
    else
      .error .indexOutOfRange

/-- The grouping loop of `ProcessBatchFromDir` over a directory listing
(filename, file text), in listing order. -/
def groupBatches (files : List (String × String)) :
    Except GroupErr (List (List Prompt)) :=
  files.foldlM groupStep []

/-! ## Document generators for the label/body fragment

`mkDoc` builds a well-formed document out of (label, body-lines) pairs, the
fragment quantified over by the spec's trivial-splitting property. -/

/-- One section: a label line followed by its tab-indented body lines. -/
def mkSection (l : String) (lines : List String) : String :=
  l ++ ":\n" ++ String.join (lines.map fun s => "\t" ++ s ++ "\n")

/-- A document made of labelled sections. -/
def mkDoc (secs : List (String × List String)) : String :=
  String.join (secs.map fun s => mkSection s.1 s.2)

/-- A valid role label: nonempty, all word characters. -/
def goodLabelB (l : List Char) : Bool :=
  ¬ l.isEmpty && l.all isWordChar

/-- A body line of the bracket-free fragment: nonempty, free of newlines and
bracket characters, not beginning with whitespace (which the scanner would
strip as continuation indentation) and not beginning with `//` (which the
scanner would drop as a comment). -/
def plainLineB : List Char → Bool
  | [] => false
  | c :: cs =>
    ¬ isSpaceTab c &&
    ¬ (c = '/' && cs.head? = some '/') &&
    (c :: cs).all fun x =>
      ¬ x = '\n' && ¬ x = '{' && ¬ x = '[' && ¬ x = '}' && ¬ x = ']'

/-- Absence of annotation references: no `@` immediately followed by a word
character anywhere in the list. -/
def noRefB : List Char → Bool
  | [] => true
  | '@' :: c :: cs => ¬ isWordChar c && noRefB (c :: cs)
  | _ :: cs => noRefB cs

/-! ## Minified structured literals

A characterization of the scanner's minified output inside a structured
literal, used to state idempotence of minification: a sequence of chunks,
each either a plain character (no whitespace, no `#`, no quote, and no two
adjacent `/` characters, which the scanner would treat as a comment opener)
or a complete double-quoted string occurring at positive bracket depth. -/

/-- A chunk of a minified structured literal. -/
inductive MinChunk where
  | plain : Char → MinChunk
  | qstr : List Char → MinChunk
  deriving DecidableEq, Repr

/-- The characters of one chunk. -/
def renderChunk : MinChunk → List Char
  | .plain c => [c]
  | .qstr s => '"' :: s ++ ['"']

/-- The characters of a chunk sequence. -/
def renderChunks (l : List MinChunk) : List Char :=
  (l.map renderChunk).flatten

/-- The bracket-depth change contributed by one plain character. -/
def chunkDelta (c : Char) : Int :=
  if c = '{' ∨ c = '[' then 1 else if c = '}' ∨ c = ']' then -1 else 0

/-- Whether a chunk sequence begins with a plain `/` chunk. -/
def headIsSlash : List MinChunk → Bool
  | .plain c2 :: _ => c2 = '/'
  | _ => false

/-- Validity of a chunk sequence starting at bracket depth `d`: plain chunks
are never whitespace, `#`, or a quote, no two adjacent plain chunks are both
`/`, and every quoted-string chunk sits at positive depth and contains
neither a quote nor a newline. -/
def chunksOKB : Int → List MinChunk → Bool
  | _, [] => true
  | d, .plain c :: rest =>
    ¬ isObjWs c && ¬ c = '#' && ¬ c = '"' &&
    ¬ (c = '/' && headIsSlash rest) &&
    chunksOKB (d + chunkDelta c) rest
  | d, .qstr s :: rest =>
    d > 0 && s.all (fun x => ¬ x = '"' && ¬ x = '\n') && chunksOKB d rest

/-- The bracket depth after scanning a chunk sequence from depth `d`. -/
def depthAfter : Int → List MinChunk → Int
  | d, [] => d
  | d, .plain c :: rest => depthAfter (d + chunkDelta c) rest
  | d, .qstr _ :: rest => depthAfter d rest

/-! ## The batch orchestrator as a labelled transition system

`ProcessBatch` (`builder_default.go` lines 103–128) iterates over tiers; for
each tier it launches one goroutine per document, waits on the `WaitGroup`
for all of them, then drains the error channel: the first collected error is
returned and no further tier runs; otherwise the next tier starts.

A document's goroutine body (trim the `.prompt` suffix, run `Process`
including the caller-supplied callbacks, report an optional error) is
modelled as one `DocTask`: an arbitrary state transformer on the shared
annotation store together with an optional error.  The interleaving of the
goroutines of one tier is left completely open: a scheduler chooses the
order of `start` and `finish` events, subject only to the `WaitGroup` and
error-channel logic of the orchestrator. -/

/-- One document worker of a tier: processing acts on the shared annotation
store and may report an error (the message sent to `errChan`). -/
structure DocTask where
  name : String
  run : Store → Store × Option String

/-- A `DocTask` for a pure document (nil callbacks): the goroutine body of
`ProcessBatch` trims the `.prompt` suffix from the name and the store is
read but not modified; a scan failure is reported to the error channel. -/
def procTask (p : Prompt) : DocTask where
  name := docCallbackName p.name
  run := fun σ =>
    (σ, match ProcessPure σ p.text with
        | .ok _ => none
        | .error _ => some "error processing prompt")

/-- Execution phase of one document goroutine of the current tier. -/
inductive DocPhase where
  | notStarted
  | running
  | done
  deriving DecidableEq, Repr

/-- State of the batch orchestrator: current tier index, the phase of each
goroutine of the current tier, the shared annotation store, the error
channel contents (in send order), and the call's result (`none` while still
running, `some none` for a nil return, `some (some e)` for an error
return). -/
structure BatchState where
  tier : Nat
  phases : List DocPhase
  store : Store
  errs : List String
  result : Option (Option String)

/-- The documents of tier `t` (empty beyond the end of the batch). -/
def tierDocs (batch : List (List DocTask)) (t : Nat) : List DocTask :=
  (batch.get? t).getD []

/-- Initial orchestrator state: tier 0, no goroutine started. -/
def initBatch (batch : List (List DocTask)) (σ : Store) : BatchState where
  tier := 0
  phases := List.replicate (tierDocs batch 0).length .notStarted
  store := σ
  errs := []
  result := none

/-- Observable events of a batch execution. -/
inductive BEvent where
  | start : Nat → Nat → BEvent
  | finish : Nat → Nat → BEvent
  | advance : Nat → BEvent
  | ret : Option String → BEvent
  deriving DecidableEq, Repr

/-- The tier an event belongs to. -/
def evTier : BEvent → Nat
  | .start t _ => t
  | .finish t _ => t
  | .advance t => t
  | .ret _ => 0

/-- One scheduler step of the batch orchestrator. -/
inductive BStep (batch : List (List DocTask)) :
    BatchState → BEvent → BatchState → Prop
  /-- a goroutine of the current tier begins executing -/
  | start {s : BatchState} {i : Nat}
      (hres : s.result = none)
      (hph : s.phases.get? i = some .notStarted) :
      BStep batch s (.start s.tier i) { s with phases := s.phases.set i .running }
  /-- a running goroutine completes: its document's processing is applied to
  the shared store and an error, if any, is sent to the channel -/
  | finish {s : BatchState} {i : Nat} {d : DocTask}
      (hres : s.result = none)
      (hph : s.phases.get? i = some .running)
      (hd : (tierDocs batch s.tier).get? i = some d) :
      BStep batch s (.finish s.tier i)
        { s with phases := s.phases.set i .done,
                 store := (d.run s.store).1,
                 errs := s.errs ++ ((d.run s.store).2).toList }
  /-- the `WaitGroup` barrier and empty error channel let the orchestrator
  move to the next tier -/
  | advance {s : BatchState}
      (hres : s.result = none)
      (hall : ∀ p ∈ s.phases, p = .done)
      (herr : s.errs = [])
      (hlt : s.tier < batch.length) :
      BStep batch s (.advance s.tier)
        { s with tier := s.tier + 1,
                 phases := List.replicate (tierDocs batch (s.tier + 1)).length .notStarted }
  /-- all tiers done without error: `ProcessBatch` returns nil -/
  | retOk {s : BatchState}
      (hres : s.result = none)
      (hend : batch.length ≤ s.tier) :
      BStep batch s (.ret none) { s with result := some none }
  /-- the tier finished with a nonempty error channel: the first collected
  error is returned -/
  | retErr {s : BatchState} {e : String}
      (hres : s.result = none)
      (hall : ∀ p ∈ s.phases, p = .done)
      (herr : s.errs.head? = some e) :
      BStep batch s (.ret (some e)) { s with result := some (some e) }

/-- Multi-step reachability recording the event trace. -/
inductive BReach (batch : List (List DocTask)) :
    BatchState → List BEvent → BatchState → Prop
  | refl (s : BatchState) : BReach batch s [] s
  | step {s : BatchState} {tr : List BEvent} {s1 s2 : BatchState} {e : BEvent}
      (h1 : BReach batch s tr s1) (h2 : BStep batch s1 e s2) :
      BReach batch s (tr ++ [e]) s2

/-- Character-level text of one body line: tab indentation, the line, a
newline. -/
def lineCharsL (ln : List Char) : List Char := '\t' :: ln ++ ['\n']

/-- Character-level text of a list of body lines. -/
def linesTextL (lines : List (List Char)) : List Char :=
  (lines.map lineCharsL).flatten

/-- Character-level text of one section (after a preceding newline): the
label, a colon, a newline, the body lines. -/
def secTextL (l : List Char) (lines : List (List Char)) : List Char :=
  l ++ ':' :: '\n' :: linesTextL lines

/-- Character-level text of a document of labelled sections. -/
def docTextL (secs : List (List Char × List (List Char))) : List Char :=
  (secs.map fun s => secTextL s.1 s.2).flatten

/-- A concrete document worker that sets annotation `x` to `"1"` through the
shared store and succeeds. -/
def wTask0 : DocTask := ⟨"a", fun σ => (storeSet σ "x" "1", none)⟩

/-- A concrete document worker that only reads the shared store and
succeeds. -/
def wTask1 : DocTask := ⟨"b", fun σ => (σ, none)⟩

/-- A concrete two-tier batch: tier 0 writes annotation `x`, tier 1 reads
it. -/
def wBatch : List (List DocTask) := [[wTask0], [wTask1]]

/-! # Theorems -/

/-! ## Properties of the span combinator -/

theorem spanWhileP_append {p : Char → Bool} :
    ∀ {l t r : List Char}, spanWhileP p l = some (t, r) → l = t ++ r := by
  intro l
  induction l with
  | nil => intro t r h; simp [spanWhileP] at h
  | cons c cs ih =>
    intro t r h
    by_cases hc : p c
    · simp [spanWhileP, hc] at h
      cases hspan : spanWhileP p cs with
      | none => rw [hspan] at h; simp at h
      | some tr =>
        rw [hspan] at h
        simp at h
        obtain ⟨ht, hr⟩ := h
        have := ih (t := tr.1) (r := tr.2) (by rw [hspan])
        subst hr
        rw [← ht]
        simp [this]
    · simp [spanWhileP, hc] at h
      obtain ⟨ht, hr⟩ := h
      subst ht; subst hr; rfl

theorem spanWhileP_length_le {p : Char → Bool} {l t r : List Char}
    (h : spanWhileP p l = some (t, r)) : r.length ≤ l.length := by
  have := spanWhileP_append h
  subst this
  simp

/-- Building a span result: a prefix all of whose characters satisfy `p`,
followed by a character violating `p`, spans exactly at that character. -/
theorem spanWhileP_eq {p : Char → Bool} :
    ∀ (t : List Char) (c : Char) (r : List Char),
      (∀ x ∈ t, p x) → ¬ p c →
      spanWhileP p (t ++ c :: r) = some (t, c :: r) := by
  intro t
  induction t with
  | nil => intro c r _ hc; simp [spanWhileP, hc]
  | cons a as ih =>
    intro c r hall hc
    have ha : p a := hall a (by simp)
    simp only [List.cons_append, spanWhileP, ha, if_true]
    rw [List.append_eq, ih c r (fun x hx => hall x (by simp [hx])) hc]

theorem spanWhileP_none {p : Char → Bool} :
    ∀ (l : List Char), (∀ x ∈ l, p x) → spanWhileP p l = none := by
  intro l
  induction l with
  | nil => intro _; rfl
  | cons a as ih =>
    intro hall
    have ha : p a := hall a (by simp)
    simp [spanWhileP, ha, ih (fun x hx => hall x (by simp [hx]))]


/-! ## Store lemmas -/

theorem lookup_storeDel : ∀ (σ : Store) (id : String),
    (storeDel σ id).lookup id = none := by
  intro σ id
  induction σ with
  | nil => rfl
  | cons p rest ih =>
    by_cases hp : p.1 = id
    · simpa [storeDel, hp] using ih
    · have hne : (id == p.1) = false := by
        simp only [beq_eq_false_iff_ne, ne_eq]
        exact fun h => hp h.symm
      simpa [storeDel, hp, List.lookup, hne] using ih

theorem storeGet_storeSet (σ : Store) (id v : String) :
    storeGet (storeSet σ id v) id = v := by
  simp [storeGet, storeSet, List.lookup]

/-! ## String helpers -/

theorem isPrefixOf_append : ∀ (l t : List Char), l.isPrefixOf (l ++ t) := by
  intro l t
  induction l with
  | nil => simp [List.isPrefixOf]
  | cons c cs ih => simp [List.isPrefixOf, ih]

theorem trimSuffix_append (x suf : String) : trimSuffix (x ++ suf) suf = x := by
  have hd : (x ++ suf).data = x.data ++ suf.data := String.data_append ..
  have hsuf : suf.data.isSuffixOf (x ++ suf).data = true := by
    rw [hd]
    simp only [List.isSuffixOf, List.reverse_append]
    exact isPrefixOf_append _ _
  rw [trimSuffix, if_pos hsuf, hd, List.length_append, Nat.add_sub_cancel,
    List.take_left]

/-! ## Dispatch lemmas for the scanner loop -/

theorem scanLoop_cons_nl (n : Nat) (st : ScanState) (cs : List Char) :
    scanLoop (n + 1) st ('\n' :: cs) = newlineStep (scanLoop n) st cs := by
  simp [scanLoop]

theorem scanLoop_cons_body (n : Nat) (st : ScanState) (c : Char) (cs : List Char)
    (h : st.isTab = true) (hc : ¬ c = '\n') :
    scanLoop (n + 1) st (c :: cs) = bodyStep (scanLoop n) st c cs := by
  simp [scanLoop, h, hc]

theorem scanLoop_cons_label (n : Nat) (st : ScanState) (c : Char) (cs : List Char)
    (h : st.isTab = false) (hc : ¬ c = '\n') :
    scanLoop (n + 1) st (c :: cs) = labelStep (scanLoop n) (flushLabel st) c cs := by
  simp [scanLoop, h, hc]

/-! ## Claim C9

For every input, `processPrompt` reads only in-bounds positions of its
newline-wrapped input.  This is false: in the string-copying loop
(`builder_default.go` lines 307–314) `for prompt[i] != '"' { next(true) }`
there is no bounds check, so an opening quote inside a structured literal
with no closing quote makes the loop evaluate `prompt[len(prompt)]` — an
out-of-bounds read that panics at runtime. -/

/-- C9: the document `x:` with the tabulated body `["abc` (an opening quote
inside a bracket with no closing quote before end of input) drives the
scanner into an out-of-bounds read, modelled by `PErr.oob`. -/
theorem c9_unterminated_string_out_of_bounds :
    processPrompt "x:\n\t[\"abc\n" = .error .oob := rfl

/-! ## Claim C10

`ProcessBatchFromDir` assigns a file with numeric prefix `p` to tier slot
`p` without out-of-range indexing.  This is false: the grouping loop
(`builder_default.go` lines 91–96) appends at most one empty tier per file
and then indexes `batches[prefix]` unconditionally, so a listing whose
prefixes do not form a contiguous run from 0 panics with an index
out of range. -/

/-- C10: the single file `2_a.prompt` parses to prefix 2, the slice is
grown to length 1 only, and `batches[2]` is an out-of-range access
(a runtime panic in Go, modelled by `GroupErr.indexOutOfRange`). -/
theorem c10_tier_gap_out_of_range :
    atoi (beforeUnderscore "2_a.prompt") = some 2 ∧
    groupBatches [("2_a.prompt", "text")] = .error .indexOutOfRange :=
  ⟨rfl, rfl⟩

/-! ## Claim C6 -/

/-- C6 counterexample: the claim says a string value is stored as that
string itself, but `SetAnnotation` passes every non-nil value through
`json.Marshal`, and the JSON encoding of the Go string `Bunny` is the
quoted text `"Bunny"`; the subsequent lookup returns the quoted form, not
the string that was set. -/
theorem c6_counterexample :
    getAnnotationFn (setAnnotationFn [] "Name" (some (.str "Bunny"))) "Name" =
      "\"Bunny\"" ∧
    ("\"Bunny\"" : String) ≠ "Bunny" :=
  ⟨rfl, by decide⟩

/-- C6 amended: `SetAnnotation(id, nil)` deletes the entry for `id`; a
non-nil value is stored as its JSON encoding (the string-format fallback is
dead for values that marshal), so a string `s` is stored quoted as
`jsonQuote s` — not as `s` itself — and an integer `n` as its decimal
text. -/
theorem c6_amended (σ : Store) (id s : String) (n : Int) :
    setAnnotationFn σ id none = storeDel σ id ∧
    (setAnnotationFn σ id none).lookup id = none ∧
    getAnnotationFn (setAnnotationFn σ id (some (.str s))) id = jsonQuote s ∧
    getAnnotationFn (setAnnotationFn σ id (some (.int n))) id = toString n := by
  refine ⟨rfl, lookup_storeDel σ id, ?_, ?_⟩
  · exact storeGet_storeSet ..
  · exact storeGet_storeSet ..

/-! ## Claim C7 -/

/-- C7 counterexample: the claim says the numeric tier prefix is stripped
from the name before the per-document callbacks run, but `ProcessBatch`
(line 112) only trims the `.prompt` suffix: the callbacks for
`1_followup.prompt` receive the name `1_followup`, not `followup`. -/
theorem c7_counterexample :
    docCallbackName "1_followup.prompt" = "1_followup" ∧
    ("1_followup" : String) ≠ "followup" :=
  ⟨rfl, by decide⟩

/-- C7 amended: the numeric tier prefix is used only for tier grouping but
is NOT stripped from the document name: before `Process` and its callbacks
run, only the `.prompt` suffix is removed, and the `<tier>_` prefix is
retained verbatim. -/
theorem c7_amended (t : Nat) (base : String) :
    docCallbackName (toString t ++ "_" ++ base ++ ".prompt") =
      toString t ++ "_" ++ base :=
  trimSuffix_append ..


/-! ## Claim C2: the worked example of the spec -/

/-- The worked example document of spec section 8 (4-space indentation). -/
def specExampleDoc : String :=
  "system:\n    Say hello to @Name.\n    [\n        \x7b\"greeting\": \"hi\", \"note\": // comment\n            \"ok\"\x7d\n    ]\n"

/-- C2 counterexample: with `Name` bound to `Bunny`, compiling the spec's
worked example yields a single `system` message whose content keeps the
brackets, drops the `//` comment entirely (the scanner skips `//` comments
inside literals without copying, lines 324–331), and contains no newlines
(the scanner never copies the newline it consumes, line 174) — not the
content claimed by the spec, which keeps the comment and two newlines. -/
theorem c2_counterexample :
    ProcessPure [("Name", "Bunny")] specExampleDoc =
      .ok [⟨"system",
        "Say hello to Bunny.[\x7b\"greeting\":\"hi\",\"note\":\"ok\"\x7d]"⟩] ∧
    ("Say hello to Bunny.[\x7b\"greeting\":\"hi\",\"note\":\"ok\"\x7d]" : String) ≠
      "Say hello to Bunny.\n\x7b\"greeting\":\"hi\",\"note\": // comment\n\"ok\"\x7d" :=
  ⟨rfl, by decide⟩

/-- C2 amended: with annotation `Name` bound to `Bunny` beforehand, the
spec's worked example compiles to the single message with role `system` and
content `Say hello to Bunny.[{"greeting":"hi","note":"ok"}]`: structural
whitespace inside the brackets is removed, the `//` comment is dropped
entirely, the newlines between body lines are dropped, and the bracket
characters themselves are kept. -/
theorem c2_amended :
    ProcessPure [("Name", "Bunny")] specExampleDoc =
      .ok [⟨"system",
        "Say hello to Bunny.[\x7b\"greeting\":\"hi\",\"note\":\"ok\"\x7d]"⟩] :=
  rfl

/-! ## Claim C1, counterexample part -/

/-- C1 counterexample: the claim says the newlines between the lines of one
body are preserved in the message content, but the scanner consumes every
newline with `next(false)` (line 174) and never writes one: the two-line
body `x` / `y` compiles to content `xy`, not `x\ny`. -/
theorem c1_counterexample :
    processPrompt "a:\n\tx\n\ty\n" = .ok [⟨"a", "xy"⟩] ∧
    ("xy" : String) ≠ "x\ny" :=
  ⟨rfl, by decide⟩

/-! ## Claim C5 -/

/-- C5 counterexample: a backslash does not suppress the special meaning of
the following character.  In the body `\{ b c`, the escaped `{` still
increments the bracket depth — visible because the following spaces are
minified away, giving content `\{bc` instead of the claimed `\{ b c` —
and in `say \@N!` with `N` bound to `V` the escaped `@N` is still resolved,
giving `say \V!` instead of the claimed `say \@N!`. -/
theorem c5_counterexample :
    processPrompt "a:\n\t\\\x7b b c\n" = .ok [⟨"a", "\\\x7bbc"⟩] ∧
    ("\\\x7bbc" : String) ≠ "\\\x7b b c" ∧
    ProcessPure [("N", "V")] "a:\n\tsay \\@N!\n" = .ok [⟨"a", "say \\V!"⟩] ∧
    ("say \\V!" : String) ≠ "say \\@N!" :=
  ⟨rfl, by decide, rfl, by decide⟩

/-- C5 amended: a backslash in a section body is an ordinary character: it
is copied to the output verbatim and does NOT suppress the meaning of the
following character.  In particular the scanner treats `\\` like any other
character (first conjunct), an escaped `{` still increments the bracket
depth (second conjunct), and the annotation-replacement pass still resolves
`@` immediately after a backslash (third conjunct). -/
theorem c5_backslash_is_ordinary :
    (∀ (n : Nat) (st : ScanState) (cs : List Char), st.isTab = true →
      scanLoop (n + 1) st ('\\' :: cs) =
        scanLoop n { st with acc := st.acc ++ ['\\'] } cs) ∧
    (∀ (n : Nat) (st : ScanState) (cs : List Char), st.isTab = true →
      scanLoop (n + 2) st ('\\' :: '\x7b' :: cs) =
        scanLoop n { st with stack := st.stack + 1, acc := st.acc ++ ['\\', '\x7b'] } cs) ∧
    (∀ (n : Nat) (σ : Store) (cs : List Char),
      replLoop (n + 1) σ ('\\' :: cs) = '\\' :: replLoop n σ cs) := by
  have hbody : ∀ (k : ScanState → List Char → Except PErr (List Message))
      (st : ScanState) (cs : List Char),
      bodyStep k st '\\' cs = k { st with acc := st.acc ++ ['\\'] } cs := by
    intro k st cs
    by_cases hs : st.stack > 0 <;> simp [bodyStep, hs, isObjWs]
  refine ⟨?_, ?_, ?_⟩
  · intro n st cs h
    rw [scanLoop_cons_body n st _ _ h (by decide), hbody]
  · intro n st cs h
    have hopen : ∀ (k : ScanState → List Char → Except PErr (List Message))
        (st2 : ScanState), bodyStep k st2 '\x7b' cs =
          k { st2 with stack := st2.stack + 1, acc := st2.acc ++ ['\x7b'] } cs := by
      intro k st2
      simp [bodyStep]
    rw [scanLoop_cons_body (n + 1) st _ _ h (by decide), hbody,
      scanLoop_cons_body n { st with acc := st.acc ++ ['\\'] } '\x7b' cs
        (by simpa using h) (by decide), hopen]
    simp
  · intro n σ cs
    simp [replLoop]

/-- C5 witness: the amended theorem applied at a concrete state, and the
evaluation of the scanner on that input. -/
theorem c5_backslash_is_ordinary_witness :
    scanLoop 3 ⟨0, "a", true, [], []⟩ ['\\', 'x'] =
      scanLoop 2 ⟨0, "a", true, ['\\'], []⟩ ['x'] ∧
    scanLoop 3 ⟨0, "a", true, [], []⟩ ['\\', 'x'] = .ok [⟨"a", "\\x"⟩] :=
  ⟨c5_backslash_is_ordinary.1 2 ⟨0, "a", true, [], []⟩ ['x'] rfl, rfl⟩


/-! ## Fuel irrelevance for the scanner

Every iteration of the Go loop consumes at least one character, so the
result of `scanLoop` does not depend on the fuel once the fuel exceeds the
input length.  The congruence lemmas show that each branch handler calls
its continuation only on suffixes no longer than its input. -/

theorem spanWhileP_rest_le {p : Char → Bool} {c : Char} {cs t r : List Char}
    (hc : p c = true) (h : spanWhileP p (c :: cs) = some (t, r)) :
    r.length ≤ cs.length := by
  rw [spanWhileP, if_pos hc] at h
  cases hspan : spanWhileP p cs with
  | none => rw [hspan] at h; simp at h
  | some tr =>
    rw [hspan] at h
    simp at h
    obtain ⟨-, hr⟩ := h
    rw [← hr]
    exact spanWhileP_length_le (t := tr.1) (r := tr.2) (by rw [hspan])

theorem newlineStep_congr (k k2 : ScanState → List Char → Except PErr (List Message))
    (st : ScanState) (cs : List Char)
    (h : ∀ st2 l2, l2.length ≤ cs.length → k st2 l2 = k2 st2 l2) :
    newlineStep k st cs = newlineStep k2 st cs := by
  cases cs with
  | nil => exact h _ _ (Nat.le_refl _)
  | cons c1 cs1 =>
    try dsimp only
    simp only [newlineStep]
    split
    case _ tail =>
      cases hspan : spanWhileP (fun x => ¬ x = '\n') ('/' :: '/' :: tail) with
      | none => rfl
      | some tr =>
        obtain ⟨t, r⟩ := tr
        try dsimp only
        have hb : r.length ≤ ('/' :: tail).length :=
          spanWhileP_rest_le (by decide) hspan
        exact h _ _ (by simp at hb ⊢; omega)
    case _ ca csa hne =>
      by_cases hsp : isSpaceTab c1
      · rw [if_pos hsp, if_pos hsp]
        cases hspan : spanWhileP isSpaceTab (c1 :: cs1) with
        | none => rfl
        | some tr =>
          obtain ⟨t, rest⟩ := tr
          try dsimp only
          have hb : rest.length ≤ cs1.length := spanWhileP_rest_le hsp hspan
          cases rest with
          | nil => rfl
          | cons r rs =>
            try dsimp only
            by_cases hr : r = '\n'
            · rw [if_pos hr, if_pos hr]
              exact h _ _ (by simp at hb ⊢; omega)
            · rw [if_neg hr, if_neg hr]
              split
              case _ tail2 =>
                cases hspan2 : spanWhileP (fun x => ¬ x = '\n') ('/' :: '/' :: tail2) with
                | none => rfl
                | some tr2 =>
                  obtain ⟨t2, rest2⟩ := tr2
                  try dsimp only
                  have hb2 : rest2.length ≤ ('/' :: tail2).length :=
                    spanWhileP_rest_le (by decide) hspan2
                  exact h _ _ (by simp at hb hb2 ⊢; omega)
              case _ =>
                by_cases hl : st.label = ""
                · rw [if_pos hl, if_pos hl]
                · rw [if_neg hl, if_neg hl]
                  exact h _ _ (by simp at hb ⊢; omega)
      · rw [if_neg hsp, if_neg hsp]
        exact h _ _ (Nat.le_refl _)

theorem labelStep_congr (k k2 : ScanState → List Char → Except PErr (List Message))
    (st : ScanState) (c : Char) (cs : List Char)
    (h : ∀ st2 l2, l2.length ≤ cs.length → k st2 l2 = k2 st2 l2) :
    labelStep k st c cs = labelStep k2 st c cs := by
  simp only [labelStep]
  by_cases hw : isWordChar c
  case neg => rw [if_neg hw, if_neg hw]
  case pos =>
  rw [if_pos hw, if_pos hw]
  cases hspan : spanWhileP isWordChar (c :: cs) with
  | none => rfl
  | some tr =>
    obtain ⟨word, rest⟩ := tr
    try dsimp only
    have hb : rest.length ≤ cs.length := spanWhileP_rest_le hw hspan
    cases rest with
    | nil => rfl
    | cons r rs =>
      try dsimp only
      by_cases hr : r = ':'
      · rw [if_pos hr, if_pos hr]
        cases hspan2 : spanWhileP isSpaceTab rs with
        | none => rfl
        | some tr2 =>
          obtain ⟨t2, rest2⟩ := tr2
          try dsimp only
          have hb2 : rest2.length ≤ rs.length :=
            spanWhileP_length_le (by rw [hspan2])
          cases rest2 with
          | nil => rfl
          | cons r2 rs2 =>
            try dsimp only
            split
            case _ tail3 =>
              cases hspan3 : spanWhileP (fun x => ¬ x = '\n') ('/' :: '/' :: tail3) with
              | none => rfl
              | some tr3 =>
                obtain ⟨t3, rest3⟩ := tr3
                try dsimp only
                have hb3 : rest3.length ≤ ('/' :: tail3).length :=
                  spanWhileP_rest_le (by decide) hspan3
                exact h _ _ (by simp at hb hb2 hb3 ⊢; omega)
            case _ =>
              by_cases hr2 : r2 = '\n'
              · rw [if_pos hr2, if_pos hr2]
                exact h _ _ (by simp at hb hb2 ⊢; omega)
              · rw [if_neg hr2, if_neg hr2]
      · rw [if_neg hr, if_neg hr]
        cases hspan2 : spanWhileP isSpaceTab (r :: rs) with
        | none => rfl
        | some tr2 =>
          obtain ⟨t2, rest2⟩ := tr2
          try dsimp only
          have hb2 : rest2.length ≤ (r :: rs).length :=
            spanWhileP_length_le (by rw [hspan2])
          cases rest2 with
          | nil => rfl
          | cons r2 rs2 =>
            try dsimp only
            by_cases hr2 : r2 = '='
            · rw [if_pos hr2, if_pos hr2]
              cases hspan3 : spanWhileP isSpaceTab rs2 with
              | none => rfl
              | some tr3 =>
                obtain ⟨t3, rest3⟩ := tr3
                try dsimp only
                have hb3 : rest3.length ≤ rs2.length :=
                  spanWhileP_length_le (by rw [hspan3])
                cases hspan4 : spanWhileP (fun x => ¬ x = '\n') rest3 with
                | none => rfl
                | some tr4 =>
                  obtain ⟨t4, rest4⟩ := tr4
                  try dsimp only
                  have hb4 : rest4.length ≤ rest3.length :=
                    spanWhileP_length_le (by rw [hspan4])
                  exact h _ _ (by simp at hb hb2 hb3 hb4 ⊢; omega)
            · rw [if_neg hr2, if_neg hr2]

theorem bodyStep_congr (k k2 : ScanState → List Char → Except PErr (List Message))
    (st : ScanState) (c : Char) (cs : List Char)
    (h : ∀ st2 l2, l2.length ≤ cs.length → k st2 l2 = k2 st2 l2) :
    bodyStep k st c cs = bodyStep k2 st c cs := by
  simp only [bodyStep]
  by_cases h1 : c = '\x7b' ∨ c = '['
  · rw [if_pos h1, if_pos h1]
    exact h _ _ (Nat.le_refl _)
  rw [if_neg h1, if_neg h1]
  by_cases h2 : c = '\x7d' ∨ c = ']'
  · rw [if_pos h2, if_pos h2]
    exact h _ _ (Nat.le_refl _)
  rw [if_neg h2, if_neg h2]
  by_cases h3 : st.stack > 0
  case neg =>
    rw [if_neg h3, if_neg h3]
    exact h _ _ (Nat.le_refl _)
  case pos =>
  rw [if_pos h3, if_pos h3]
  by_cases h4 : c = '"'
  · rw [if_pos h4, if_pos h4]
    cases hspan : spanWhileP (fun x => ¬ x = '"') cs with
    | none => rfl
    | some tr =>
      obtain ⟨body, rest⟩ := tr
      try dsimp only
      have hb : rest.length ≤ cs.length :=
        spanWhileP_length_le (by rw [hspan])
      cases rest with
      | nil => rfl
      | cons q rs =>
        try dsimp only
        exact h _ _ (by simp at hb ⊢; omega)
  rw [if_neg h4, if_neg h4]
  by_cases h5 : c = '#'
  · rw [if_pos h5, if_pos h5]
    cases hspan : spanWhileP (fun x => ¬ x = '\n') cs with
    | none => rfl
    | some tr =>
      obtain ⟨body, rest⟩ := tr
      try dsimp only
      have hb : rest.length ≤ cs.length :=
        spanWhileP_length_le (by rw [hspan])
      cases rest with
      | nil => rfl
      | cons nl rs =>
        try dsimp only
        exact h _ _ (by simp at hb ⊢; omega)
  rw [if_neg h5, if_neg h5]
  split
  case _ tail =>
    cases hspan : spanWhileP (fun x => ¬ x = '\n') ('/' :: '/' :: tail) with
    | none => rfl
    | some tr =>
      obtain ⟨t, rest⟩ := tr
      try dsimp only
      have hb : rest.length ≤ ('/' :: tail).length :=
        spanWhileP_rest_le (by decide) hspan
      exact h _ _ (by simp at hb ⊢; omega)
  case _ =>
    by_cases h6 : isObjWs c
    · rw [if_pos h6, if_pos h6]
      cases hspan : spanWhileP isObjWs cs with
      | none => rfl
      | some tr =>
        obtain ⟨t, rest⟩ := tr
        try dsimp only
        have hb : rest.length ≤ cs.length :=
          spanWhileP_length_le (by rw [hspan])
        exact h _ _ hb
    · rw [if_neg h6, if_neg h6]
      exact h _ _ (Nat.le_refl _)

theorem scanLoop_nil (n : Nat) (st : ScanState) :
    scanLoop n st [] = .ok (finishScan st) := by
  cases n <;> rfl

theorem scanLoop_fuel_irrel : ∀ (N n m : Nat) (st : ScanState) (l : List Char),
    l.length ≤ N → l.length < n → l.length < m →
    scanLoop n st l = scanLoop m st l := by
  intro N
  induction N with
  | zero =>
    intro n m st l hN _ _
    have : l = [] := List.eq_nil_of_length_eq_zero (Nat.le_zero.mp hN)
    subst this
    rw [scanLoop_nil, scanLoop_nil]
  | succ N ih =>
    intro n m st l hN hn hm
    cases l with
    | nil => rw [scanLoop_nil, scanLoop_nil]
    | cons c cs =>
      simp only [List.length_cons] at hN hn hm
      cases n with
      | zero => omega
      | succ n2 =>
        cases m with
        | zero => omega
        | succ m2 =>
          simp only [scanLoop]
          by_cases hc : c = '\n'
          · rw [if_pos hc, if_pos hc]
            exact newlineStep_congr _ _ _ _
              (fun st2 l2 hle => ih n2 m2 st2 l2 (by omega) (by omega) (by omega))
          · rw [if_neg hc, if_neg hc]
            by_cases ht : st.isTab = false
            · rw [if_pos ht, if_pos ht]
              exact labelStep_congr _ _ _ _ _
                (fun st2 l2 hle => ih n2 m2 st2 l2 (by omega) (by omega) (by omega))
            · rw [if_neg ht, if_neg ht]
              exact bodyStep_congr _ _ _ _ _
                (fun st2 l2 hle => ih n2 m2 st2 l2 (by omega) (by omega) (by omega))

/-- Any sufficient fuel computes `processPromptL`. -/
theorem scanLoop_eq_processPromptL (n : Nat) (l : List Char)
    (hn : l.length + 2 < n) :
    scanLoop n initState ('\n' :: l ++ ['\n']) = processPromptL l := by
  exact scanLoop_fuel_irrel (l.length + 2) n (l.length + 3) initState _
    (by simp) (by simp; omega) (by simp)


/-! ## The replacement pass: fuel irrelevance and the substitution law -/

theorem length_dropWhile_le (p : Char → Bool) :
    ∀ (l : List Char), (l.dropWhile p).length ≤ l.length := by
  intro l
  induction l with
  | nil => simp
  | cons c cs ih =>
    by_cases hc : p c
    · rw [List.dropWhile_cons_of_pos hc]
      exact Nat.le_succ_of_le ih
    · rw [List.dropWhile_cons_of_neg hc]

theorem replLoop_fuel_irrel : ∀ (N n m : Nat) (σ : Store) (l : List Char),
    l.length ≤ N → l.length < n → l.length < m →
    replLoop n σ l = replLoop m σ l := by
  intro N
  induction N with
  | zero =>
    intro n m σ l hN _ _
    have : l = [] := List.eq_nil_of_length_eq_zero (Nat.le_zero.mp hN)
    subst this
    cases n with
    | zero => cases m <;> rfl
    | succ n2 => cases m <;> rfl
  | succ N ih =>
    intro n m σ l hN hn hm
    cases l with
    | nil =>
      cases n with
      | zero => cases m <;> rfl
      | succ n2 => cases m <;> rfl
    | cons c cs =>
      simp only [List.length_cons] at hN hn hm
      cases n with
      | zero => omega
      | succ n2 =>
        cases m with
        | zero => omega
        | succ m2 =>
          simp only [replLoop]
          by_cases hc : c = '@'
          · rw [if_pos hc, if_pos hc]
            have hdw := length_dropWhile_le isWordChar cs
            cases htw : cs.takeWhile isWordChar with
            | nil =>
              exact congrArg ('@' :: ·) (ih n2 m2 σ cs (by omega) (by omega) (by omega))
            | cons w ws =>
              exact congrArg (_ ++ ·)
                (ih n2 m2 σ (cs.dropWhile isWordChar) (by omega) (by omega) (by omega))
          · rw [if_neg hc, if_neg hc]
            exact congrArg (c :: ·) (ih n2 m2 σ cs (by omega) (by omega) (by omega))

theorem takeWhile_word_token (id suf : List Char)
    (hid : ∀ c ∈ id, isWordChar c = true)
    (hsuf : ∀ c, suf.head? = some c → isWordChar c = false) :
    (id ++ suf).takeWhile isWordChar = id ∧
    (id ++ suf).dropWhile isWordChar = suf := by
  induction id with
  | nil =>
    cases suf with
    | nil => exact ⟨rfl, rfl⟩
    | cons c cs =>
      have h := hsuf c rfl
      simp [List.takeWhile_cons, List.dropWhile_cons, h]
  | cons c cs ih =>
    have hc : isWordChar c = true := hid c (by simp)
    have ih2 := ih (fun x hx => hid x (by simp [hx]))
    simp [List.takeWhile_cons, List.dropWhile_cons, hc, ih2.1, ih2.2]

theorem replList_cons_ne (σ : Store) (c : Char) (cs : List Char) (hc : ¬ c = '@') :
    replList σ (c :: cs) = c :: replList σ cs := by
  simp only [replList, List.length_cons, replLoop, if_neg hc]

/-! ## Claim C4 -/

/-- C4: the annotation-replacement pass of `Process` replaces every
occurrence of `@` followed by a maximal nonempty identifier by the store's
current value for that identifier (the original `@` and identifier
characters are not copied to the output), and looking up an identifier with
no stored value never errors and substitutes the empty string.  The first
conjunct characterizes one replacement compositionally: applied repeatedly
it determines the whole pass. -/
theorem c4_annotation_substitution (σ : Store) (pre id suf : List Char)
    (hpre : ¬ '@' ∈ pre) (hid1 : id ≠ [])
    (hid2 : ∀ c ∈ id, isWordChar c = true)
    (hsuf : ∀ c, suf.head? = some c → isWordChar c = false) :
    replList σ (pre ++ '@' :: (id ++ suf)) =
      pre ++ (getAnnotationFn σ (String.mk id)).data ++ replList σ suf ∧
    (∀ (w : String), σ.lookup w = none → getAnnotationFn σ w = "") := by
  constructor
  · induction pre with
    | nil =>
      simp only [List.nil_append]
      obtain ⟨ci, id2, rfl⟩ : ∃ ci id2, id = ci :: id2 := by
        cases id with
        | nil => exact absurd rfl hid1
        | cons ci id2 => exact ⟨ci, id2, rfl⟩
      have htw := takeWhile_word_token (ci :: id2) suf hid2 hsuf
      simp only [replList, List.length_cons, replLoop, if_pos rfl, htw.1, htw.2]
      have hfl : replLoop ((ci :: id2 ++ suf).length + 1) σ suf = replList σ suf :=
        replLoop_fuel_irrel suf.length _ _ σ suf (Nat.le_refl _)
          (by simp; omega) (by simp)
      rw [hfl]
      simp [replList]
    | cons c pre2 ih =>
      have hc : ¬ c = '@' := fun h => hpre (by simp [h])
      have ih2 := ih (fun h => hpre (by simp [h]))
      simp only [List.cons_append, replList_cons_ne σ c _ hc, ih2]

  · intro w hw
    simp [getAnnotationFn, storeGet, hw]

/-- C4 witness: the substitution law applied at a concrete decomposition,
the evaluated replacement pass, and the empty-string default for an
identifier with no stored value. -/
theorem c4_annotation_substitution_witness :
    replList [("Name", "Bunny")] ("Say ".data ++ '@' :: ("Name".data ++ "!".data)) =
      "Say ".data ++ (getAnnotationFn [("Name", "Bunny")] (String.mk "Name".data)).data ++
        replList [("Name", "Bunny")] "!".data ∧
    replList [("Name", "Bunny")] "Say @Name!".data = "Say Bunny!".data ∧
    getAnnotationFn [("Name", "Bunny")] "Missing" = "" :=
  ⟨(c4_annotation_substitution [("Name", "Bunny")] "Say ".data "Name".data "!".data
      (by decide) (by decide) (by decide) (by decide)).1,
   by decide,
   (c4_annotation_substitution [("Name", "Bunny")] [] ['x'] []
      (by decide) (by decide) (by decide) (by decide)).2 "Missing" rfl⟩


/-! ## Reduction lemmas for the branch handlers -/

theorem bodyStep_plain (k : ScanState → List Char → Except PErr (List Message))
    (st : ScanState) (c : Char) (cs : List Char)
    (h1 : ¬ (c = '\x7b' ∨ c = '[')) (h2 : ¬ (c = '\x7d' ∨ c = ']'))
    (h3 : ¬ st.stack > 0) :
    bodyStep k st c cs = k { st with acc := st.acc ++ [c] } cs := by
  simp only [bodyStep, if_neg h1, if_neg h2, if_neg h3]

theorem newlineStep_isTab (k : ScanState → List Char → Except PErr (List Message))
    (st : ScanState) (b : Bool) (cs : List Char) :
    newlineStep k st cs = newlineStep k { st with isTab := b } cs := rfl

theorem newlineStep_plain (k : ScanState → List Char → Except PErr (List Message))
    (st : ScanState) (c1 : Char) (cs1 : List Char)
    (h1 : isSpaceTab c1 = false)
    (h2 : ¬ (c1 = '/' ∧ cs1.head? = some '/')) :
    newlineStep k st (c1 :: cs1) = k { st with isTab := false } (c1 :: cs1) := by
  rw [newlineStep]
  case x_3 =>
    intro tail he1 he2
    exact h2 ⟨he1, by rw [he2]; rfl⟩
  rw [if_neg (by simp [h1])]

theorem newlineStep_indent (k : ScanState → List Char → Except PErr (List Message))
    (st : ScanState) (w : Char) (ws : List Char) (r : Char) (rs : List Char)
    (hw : isSpaceTab w = true) (hws : ∀ x ∈ ws, isSpaceTab x = true)
    (hr : isSpaceTab r = false) (hrn : ¬ r = '\n')
    (hrc : ¬ (r = '/' ∧ rs.head? = some '/'))
    (hlbl : ¬ st.label = "") :
    newlineStep k st ((w :: ws) ++ r :: rs) = k { st with isTab := true } (r :: rs) := by
  have hspan : spanWhileP isSpaceTab (w :: (ws ++ r :: rs)) = some (w :: ws, r :: rs) := by
    rw [show w :: (ws ++ r :: rs) = (w :: ws) ++ r :: rs by simp]
    apply spanWhileP_eq
    · intro x hx
      rcases List.mem_cons.mp hx with rfl | hx2
      · exact hw
      · exact hws x hx2
    · simp [hr]
  have hwslash : ¬ w = '/' := by
    intro h; rw [h] at hw; exact absurd hw (by decide)
  rw [List.cons_append, newlineStep]
  case x_3 =>
    intro tail hwe _
    exact hwslash hwe
  rw [if_pos hw, hspan]
  dsimp only
  rw [if_neg hrn]
  split
  case _ => exact absurd ⟨rfl, rfl⟩ hrc
  case _ => rw [if_neg hlbl]

theorem labelStep_role (k : ScanState → List Char → Except PErr (List Message))
    (st : ScanState) (w : Char) (ws : List Char) (rest : List Char)
    (hall : ∀ c ∈ w :: ws, isWordChar c = true) :
    labelStep k st w (ws ++ ':' :: '\n' :: rest) =
      k { st with label := String.mk (w :: ws) } ('\n' :: rest) := by
  have hspan : spanWhileP isWordChar (w :: (ws ++ ':' :: '\n' :: rest)) =
      some (w :: ws, ':' :: '\n' :: rest) := by
    rw [show w :: (ws ++ ':' :: '\n' :: rest) = (w :: ws) ++ ':' :: '\n' :: rest by simp]
    exact spanWhileP_eq _ _ _ hall (by decide)
  have hspan2 : spanWhileP isSpaceTab ('\n' :: rest) = some ([], '\n' :: rest) :=
    spanWhileP_eq [] '\n' rest (by intro x hx; simp at hx) (by decide)
  rw [labelStep, if_pos (hall w (by simp)), hspan]
  dsimp only
  rw [if_pos rfl, hspan2]
  dsimp only
  split
  case _ => simp_all
  case _ => rw [if_pos rfl]


/-! ## Scanning the bracket-free label/body fragment -/

theorem isWordChar_props (c : Char) (h : isWordChar c = true) :
    isSpaceTab c = false ∧ ¬ c = '\n' ∧ ¬ c = '/' := by
  refine ⟨?_, ?_, ?_⟩
  · cases hst : isSpaceTab c
    · rfl
    · rcases (show c = '\t' ∨ c = ' ' by simpa [isSpaceTab] using hst) with rfl | rfl
      · exact absurd h (by decide)
      · exact absurd h (by decide)
  · rintro rfl; exact absurd h (by decide)
  · rintro rfl; exact absurd h (by decide)

theorem plainLineB_props (lh : Char) (lt : List Char)
    (h : plainLineB (lh :: lt) = true) :
    isSpaceTab lh = false ∧ ¬ (lh = '/' ∧ lt.head? = some '/') ∧
    (∀ c ∈ lh :: lt,
      ¬ c = '\n' ∧ ¬ c = '\x7b' ∧ ¬ c = '[' ∧ ¬ c = '\x7d' ∧ ¬ c = ']') := by
  simp only [plainLineB, Bool.and_eq_true, List.all_eq_true] at h
  obtain ⟨⟨h1, h2⟩, h3⟩ := h
  refine ⟨by simpa using h1, ?_, ?_⟩
  · have h4 : ¬ lh = '/' ∨ ¬ lt.head? = some '/' := by simpa using h2
    tauto
  · intro c hc
    have := h3 c hc
    simp only [Bool.and_eq_true, decide_eq_true_eq] at this
    tauto

theorem scanLoop_nl_isTab (n : Nat) (st : ScanState) (b : Bool) (rest : List Char) :
    scanLoop n st ('\n' :: rest) = scanLoop n { st with isTab := b } ('\n' :: rest) := by
  cases n with
  | zero => rfl
  | succ n2 =>
    rw [scanLoop_cons_nl, scanLoop_cons_nl]
    exact newlineStep_isTab _ _ _ _

theorem scanLoop_copy_plain : ∀ (line : List Char) (st : ScanState)
    (rest : List Char) (n : Nat),
    st.isTab = true → st.stack = 0 →
    (∀ c ∈ line,
      ¬ c = '\n' ∧ ¬ c = '\x7b' ∧ ¬ c = '[' ∧ ¬ c = '\x7d' ∧ ¬ c = ']') →
    (line ++ rest).length < n →
    scanLoop n st (line ++ rest) = scanLoop n { st with acc := st.acc ++ line } rest := by
  intro line
  induction line with
  | nil =>
    intro st rest n _ _ _ _
    simp
  | cons c cl ih =>
    intro st rest n ht hs hchars hlen
    cases n with
    | zero => simp at hlen
    | succ n2 =>
      obtain ⟨hn, hb1, hb2, hb3, hb4⟩ := hchars c (by simp)
      rw [List.cons_append, scanLoop_cons_body n2 st c _ ht hn,
        bodyStep_plain _ _ _ _ (by tauto) (by tauto) (by simp [hs]),
        ih { st with acc := st.acc ++ [c] } rest n2 (by simpa using ht)
          (by simpa using hs) (fun x hx => hchars x (by simp [hx]))
          (by simp at hlen ⊢; omega)]
      dsimp only
      rw [show (st.acc ++ [c]) ++ cl = st.acc ++ (c :: cl) by simp]
      exact scanLoop_fuel_irrel rest.length n2 (n2 + 1) _ rest (Nat.le_refl _)
        (by simp at hlen; omega) (by simp at hlen; omega)

theorem scanLoop_one_line (line : List Char) (st : ScanState) (rest : List Char)
    (n : Nat) (hlbl : ¬ st.label = "") (hs : st.stack = 0)
    (hl : plainLineB line = true)
    (hlen : ('\n' :: '\t' :: (line ++ '\n' :: rest)).length < n) :
    scanLoop n st ('\n' :: '\t' :: (line ++ '\n' :: rest)) =
      scanLoop n { st with acc := st.acc ++ line, isTab := true } ('\n' :: rest) := by
  cases line with
  | nil => simp [plainLineB] at hl
  | cons lh lt =>
    obtain ⟨h1, h2, h3⟩ := plainLineB_props lh lt hl
    cases n with
    | zero => simp at hlen
    | succ n2 =>
      have hrc : ¬ (lh = '/' ∧ (lt ++ '\n' :: rest).head? = some '/') := by
        cases lt with
        | nil => simp
        | cons x xs => simpa using h2
      have hn : ¬ lh = '\n' := (h3 lh (by simp)).1
      conv_lhs =>
        rw [scanLoop_cons_nl,
          show ('\t' :: ((lh :: lt) ++ '\n' :: rest) : List Char) =
            ('\t' :: []) ++ lh :: (lt ++ '\n' :: rest) by simp]
      rw [newlineStep_indent _ _ _ _ _ _ (by decide) (by simp) h1 hn hrc hlbl,
        show lh :: (lt ++ '\n' :: rest) = (lh :: lt) ++ '\n' :: rest by simp,
        scanLoop_copy_plain (lh :: lt) _ _ _ (by simp) (by simpa using hs) h3
          (by simp at hlen ⊢; omega)]
      dsimp only
      exact scanLoop_fuel_irrel ('\n' :: rest).length n2 (n2 + 1) _ _
        (Nat.le_refl _) (by simp at hlen ⊢; omega) (by simp at hlen ⊢; omega)

theorem scanLoop_lines : ∀ (lines : List (List Char)) (st : ScanState)
    (rest : List Char) (n : Nat),
    ¬ st.label = "" → st.stack = 0 →
    (∀ ln ∈ lines, plainLineB ln = true) →
    ('\n' :: (linesTextL lines ++ rest)).length < n →
    scanLoop n st ('\n' :: (linesTextL lines ++ rest)) =
      scanLoop n { st with acc := st.acc ++ lines.flatten } ('\n' :: rest) := by
  intro lines
  induction lines with
  | nil =>
    intro st rest n _ _ _ _
    simp [linesTextL]
  | cons ln lns ih =>
    intro st rest n hlbl hs hlines hlen
    conv_lhs =>
      rw [show (linesTextL (ln :: lns) ++ rest : List Char) =
          '\t' :: (ln ++ '\n' :: (linesTextL lns ++ rest)) by
            simp [linesTextL, lineCharsL]]
    rw [scanLoop_one_line ln st _ n hlbl hs (hlines ln (by simp))
        (by simp [linesTextL, lineCharsL] at hlen ⊢; omega)]
    rw [show ({ st with acc := st.acc ++ ln, isTab := true } : ScanState) =
        { ({ st with acc := st.acc ++ ln } : ScanState) with isTab := true } from rfl,
      ← scanLoop_nl_isTab]
    rw [ih { st with acc := st.acc ++ ln } rest n (by simpa using hlbl)
        (by simpa using hs) (fun x hx => hlines x (by simp [hx]))
        (by simp [linesTextL, lineCharsL] at hlen ⊢; omega)]
    dsimp only
    rw [show (st.acc ++ ln) ++ lns.flatten = st.acc ++ (ln :: lns).flatten by simp]

theorem flushLabel_isTab (st : ScanState) (b : Bool) :
    flushLabel { st with isTab := b } = { flushLabel st with isTab := b } := by
  unfold flushLabel
  by_cases h : st.label = "" <;> simp [h]

theorem flushLabel_stack (st : ScanState) : (flushLabel st).stack = st.stack := by
  unfold flushLabel
  by_cases h : st.label = "" <;> simp [h]

theorem flushLabel_acc (st : ScanState) (hacc : st.label = "" → st.acc = []) :
    (flushLabel st).acc = [] := by
  unfold flushLabel
  by_cases h : st.label = "" <;> simp [h, hacc]

theorem mk_ne_empty (w : Char) (ws : List Char) : ¬ String.mk (w :: ws) = "" := by
  intro h
  have : (String.mk (w :: ws)).data = ("" : String).data := by rw [h]
  simp at this

theorem flushLabel_mk_isTab (st : ScanState) (b : Bool) :
    flushLabel ⟨st.stack, st.label, b, st.acc, st.msgs⟩ =
      ⟨(flushLabel st).stack, (flushLabel st).label, b, (flushLabel st).acc,
        (flushLabel st).msgs⟩ := by
  unfold flushLabel
  by_cases h : st.label = "" <;> simp [h]

theorem scanLoop_section (l : List Char) (lines : List (List Char))
    (st : ScanState) (rest : List Char) (n : Nat)
    (hl : goodLabelB l = true) (hlines : ∀ ln ∈ lines, plainLineB ln = true)
    (hs : st.stack = 0) (hacc : st.label = "" → st.acc = [])
    (hlen : ('\n' :: (secTextL l lines ++ rest)).length < n) :
    scanLoop n st ('\n' :: (secTextL l lines ++ rest)) =
      scanLoop n ⟨0, String.mk l, false, lines.flatten, (flushLabel st).msgs⟩
        ('\n' :: rest) := by
  cases l with
  | nil => simp [goodLabelB] at hl
  | cons w ws =>
    have hword : ∀ c ∈ w :: ws, isWordChar c = true := by
      simp only [goodLabelB, Bool.and_eq_true, List.all_eq_true] at hl
      exact fun c hc => hl.2 c hc
    obtain ⟨hwst, hwn, hwsl⟩ := isWordChar_props w (hword w (by simp))
    cases n with
    | zero => simp at hlen
    | succ n2 =>
      conv_lhs =>
        rw [scanLoop_cons_nl,
          show (secTextL (w :: ws) lines ++ rest : List Char) =
            w :: (ws ++ ':' :: '\n' :: (linesTextL lines ++ rest)) by
              simp [secTextL]]
      rw [newlineStep_plain _ _ _ _ hwst (by rintro ⟨rfl, -⟩; exact hwsl rfl)]
      cases n2 with
      | zero => simp [secTextL, linesTextL] at hlen
      | succ n3 =>
        have hlen2 : (secTextL (w :: ws) lines).length + rest.length + 1 < n3 + 2 := by
          simpa using hlen
        have hsec : (secTextL (w :: ws) lines).length =
            ws.length + 3 + (linesTextL lines).length := by
          simp [secTextL]
          omega
        rw [scanLoop_cons_label n3 _ w _ (by rfl) hwn,
          flushLabel_mk_isTab, labelStep_role _ _ _ _ _ hword]
        dsimp only
        rw [flushLabel_stack, hs, flushLabel_acc st hacc,
          scanLoop_lines lines ⟨0, String.mk (w :: ws), false, [], (flushLabel st).msgs⟩
            rest n3 (by simpa using mk_ne_empty w ws) rfl hlines
            (by simp only [List.length_cons, List.length_append]; omega)]
        dsimp only
        rw [show ([] : List Char) ++ lines.flatten = lines.flatten by simp]
        exact scanLoop_fuel_irrel ('\n' :: rest).length n3 (n3 + 2) _ _
          (Nat.le_refl _) (by simp only [List.length_cons]; omega)
          (by simp only [List.length_cons]; omega)


theorem newlineStep_nil (k : ScanState → List Char → Except PErr (List Message))
    (st : ScanState) :
    newlineStep k st [] = k { st with isTab := false } [] := rfl

theorem mk_ne_empty_of_ne_nil (l : List Char) (h : l ≠ []) :
    ¬ String.mk l = "" := by
  cases l with
  | nil => exact absurd rfl h
  | cons w ws => exact mk_ne_empty w ws

theorem goodLabelB_ne_nil (l : List Char) (h : goodLabelB l = true) : l ≠ [] := by
  intro hnil
  subst hnil
  simp [goodLabelB] at h

theorem scanLoop_doc : ∀ (secs : List (List Char × List (List Char)))
    (st : ScanState) (n : Nat),
    (∀ s ∈ secs, goodLabelB s.1 = true) →
    (∀ s ∈ secs, ∀ ln ∈ s.2, plainLineB ln = true) →
    st.stack = 0 → (st.label = "" → st.acc = []) →
    ('\n' :: (docTextL secs ++ ['\n'])).length < n →
    scanLoop n st ('\n' :: (docTextL secs ++ ['\n'])) =
      .ok ((flushLabel st).msgs ++
        secs.map fun s => ⟨String.mk s.1, String.mk s.2.flatten⟩) := by
  intro secs
  induction secs with
  | nil =>
    intro st n _ _ hs hacc hlen
    simp only [docTextL, List.map_nil, List.flatten_nil, List.nil_append,
      List.length_cons, List.length_singleton] at hlen ⊢
    cases n with
    | zero => omega
    | succ n2 =>
      rw [scanLoop_cons_nl, newlineStep_plain _ _ _ _ (by decide) (by simp)]
      cases n2 with
      | zero => omega
      | succ n3 =>
        rw [scanLoop_cons_nl, newlineStep_nil, scanLoop_nil]
        simp only [finishScan, flushLabel_mk_isTab, List.map_nil,
          List.append_nil]
  | cons sec secs2 ih =>
    intro st n h1 h2 hs hacc hlen
    have hne : sec.1 ≠ [] := goodLabelB_ne_nil sec.1 (h1 sec (by simp))
    conv_lhs =>
      rw [show (docTextL (sec :: secs2) ++ ['\n'] : List Char) =
        secTextL sec.1 sec.2 ++ (docTextL secs2 ++ ['\n']) by simp [docTextL]]
    rw [scanLoop_section sec.1 sec.2 st _ n (h1 sec (by simp)) (h2 sec (by simp))
        hs hacc (by simp [docTextL] at hlen ⊢; omega),
      ih ⟨0, String.mk sec.1, false, sec.2.flatten, (flushLabel st).msgs⟩ n
        (fun s hsm => h1 s (by simp [hsm])) (fun s hsm => h2 s (by simp [hsm]))
        rfl (fun h => absurd h (mk_ne_empty_of_ne_nil sec.1 hne))
        (by simp [docTextL] at hlen ⊢; omega)]
    have hfl : (flushLabel
        (⟨0, String.mk sec.1, false, sec.2.flatten, (flushLabel st).msgs⟩ :
          ScanState)).msgs =
        (flushLabel st).msgs ++ [⟨String.mk sec.1, String.mk sec.2.flatten⟩] := by
      unfold flushLabel
      rw [if_pos]
      exact mk_ne_empty_of_ne_nil sec.1 hne
    rw [hfl]
    simp

/-! ## String join and the document generators -/

theorem mk_data (s : String) : String.mk s.data = s := rfl

theorem data_foldl_append : ∀ (l : List String) (acc : String),
    (l.foldl (· ++ ·) acc).data = acc.data ++ (l.map String.data).flatten := by
  intro l
  induction l with
  | nil => intro acc; simp
  | cons s rest ih =>
    intro acc
    simp only [List.foldl_cons, ih, List.map_cons, List.flatten_cons,
      String.data_append]
    simp

theorem data_join (l : List String) :
    (String.join l).data = (l.map String.data).flatten := by
  simpa [String.join] using data_foldl_append l ""

theorem mkSection_data (l : String) (lines : List String) :
    (mkSection l lines).data = secTextL l.data (lines.map String.data) := by
  simp only [mkSection, secTextL, String.data_append, data_join, linesTextL,
    List.map_map]
  have hmap : lines.map (String.data ∘ fun s => "\t" ++ s ++ "\n") =
      lines.map (lineCharsL ∘ String.data) := by
    apply List.map_congr_left
    intro s _
    simp [Function.comp, lineCharsL, String.data_append]
  rw [hmap]
  simp

theorem mkDoc_data (secs : List (String × List String)) :
    (mkDoc secs).data =
      docTextL (secs.map fun s => (s.1.data, s.2.map String.data)) := by
  simp only [mkDoc, data_join, docTextL, List.map_map]
  congr 1
  apply List.map_congr_left
  intro s _
  simp [Function.comp, mkSection_data]

/-! ## Identity of the replacement pass on reference-free text -/

theorem noRefB_cons_ne (c : Char) (cs : List Char) (hc : ¬ c = '@') :
    noRefB (c :: cs) = noRefB cs := by
  cases cs with
  | nil => simp [noRefB, hc]
  | cons c2 cs2 => simp [noRefB, hc]

theorem replList_noRef : ∀ (N : Nat) (l : List Char) (σ : Store),
    l.length ≤ N → noRefB l = true → replList σ l = l := by
  intro N
  induction N with
  | zero =>
    intro l σ hN _
    have : l = [] := List.eq_nil_of_length_eq_zero (Nat.le_zero.mp hN)
    subst this
    rfl
  | succ N ih =>
    intro l σ hN href
    cases l with
    | nil => rfl
    | cons c cs =>
      by_cases hc : c = '@'
      · subst hc
        cases cs with
        | nil => rfl
        | cons c2 cs2 =>
          have h2 : isWordChar c2 = false ∧ noRefB (c2 :: cs2) = true := by
            simpa [noRefB] using href
          have htw : (c2 :: cs2).takeWhile isWordChar = [] :=
            List.takeWhile_cons_of_neg (by simp [h2.1])
          simp only [replList, List.length_cons, replLoop, if_pos rfl, htw]
          exact congrArg ('@' :: ·)
            (ih (c2 :: cs2) σ (by simp at hN ⊢; omega) h2.2)
      · rw [replList_cons_ne σ c cs hc,
          ih cs σ (by simp at hN ⊢; omega) (by rwa [noRefB_cons_ne c cs hc] at href)]

theorem replaceAnnotations_noRef (σ : Store) (s : String)
    (h : noRefB s.data = true) : replaceAnnotations σ s = s := by
  have := replList_noRef s.data.length s.data σ (Nat.le_refl _) h
  simp only [replaceAnnotations, this]

/-! ## Claim C1, amended part -/

/-- C1 amended: for every well-formed document of the label/body fragment —
sections with word-character labels, nonempty body lines free of newlines,
brackets, leading whitespace and leading `//`, and no annotation references
in any body — `ProcessPure` returns exactly the sequence of (label, body)
messages obtained by splitting the document at its own label lines, with
each continuation line's leading indentation removed and the newlines
between the lines of one body REMOVED: the lines of one body are
concatenated directly (`String.join`), not joined with newlines. -/
theorem c1_amended (σ : Store) (secs : List (String × List String))
    (h1 : ∀ s ∈ secs, goodLabelB s.1.data = true)
    (h2 : ∀ s ∈ secs, ∀ ln ∈ s.2, plainLineB ln.data = true)
    (h3 : ∀ s ∈ secs, noRefB (String.join s.2).data = true) :
    ProcessPure σ (mkDoc secs) =
      .ok (secs.map fun s => ⟨s.1, String.join s.2⟩) := by
  have hscan : processPrompt (mkDoc secs) =
      .ok (secs.map fun s => ⟨s.1, String.join s.2⟩) := by
    rw [processPrompt, processPromptL, mkDoc_data]
    simp only [List.cons_append]
    rw [scanLoop_doc (secs.map fun s => (s.1.data, s.2.map String.data))
      initState _
      (by intro s hsm
          simp at hsm
          obtain ⟨a, b, hmem, rfl⟩ := hsm
          exact h1 (a, b) hmem)
      (by intro s hsm ln hln
          simp at hsm
          obtain ⟨a, b, hmem, rfl⟩ := hsm
          simp at hln
          obtain ⟨c, hc, rfl⟩ := hln
          exact h2 (a, b) hmem c hc)
      rfl (fun _ => rfl) (by simp)]
    have hflush : (flushLabel initState).msgs = [] := rfl
    rw [hflush]
    simp only [List.nil_append, List.map_map]
    congr 1
    apply List.map_congr_left
    intro s _
    simp only [Function.comp]
    congr 1
    have hj : String.mk ((s.2.map String.data).flatten) =
        String.mk ((String.join s.2).data) := by rw [data_join]
    rw [hj, mk_data]
  rw [ProcessPure, hscan]
  simp only [Except.map]
  congr 1
  rw [List.map_map]
  apply List.map_congr_left
  intro s hsm
  simp only [Function.comp]
  rw [replaceAnnotations_noRef σ (String.join s.2) (h3 s hsm)]

/-- C1 witness: the amended theorem applied to a concrete two-section
document, and the evaluation of the compiler on it. -/
theorem c1_amended_witness :
    ProcessPure [] (mkDoc [("a", ["x", "y"]), ("b", ["z w"])]) =
      .ok [⟨"a", String.join ["x", "y"]⟩, ⟨"b", String.join ["z w"]⟩] ∧
    ProcessPure [] (mkDoc [("a", ["x", "y"]), ("b", ["z w"])]) =
      .ok [⟨"a", "xy"⟩, ⟨"b", "z w"⟩] :=
  ⟨c1_amended [] [("a", ["x", "y"]), ("b", ["z w"])]
      (by decide) (by decide) (by decide),
   rfl⟩


/-! ## Claim C8 -/

/-- C8 counterexample: minification is not idempotent for a structured
literal containing a double-quoted string that spans a line break.  The
document `x:` / `["a` / `b"]` (body lines tab-indented) minifies to
`["a\n\tb"]` — the string-copying loop copies the newline and the next
line's indentation verbatim into the string.  Re-embedding that output as a
section body (each of its lines tab-indented) gives the document
`x:` / `["a` / `\t b"]` whose compilation is `["a\n\t\tb"]` — one more
tab inside the string — so re-minifying the already-minified literal does
not yield the same bytes. -/
theorem c8_counterexample :
    processPrompt "x:\n\t[\"a\n\tb\"]\n" = .ok [⟨"x", "[\"a\n\tb\"]"⟩] ∧
    processPrompt "x:\n\t[\"a\n\t\tb\"]\n" = .ok [⟨"x", "[\"a\n\t\tb\"]"⟩] ∧
    ("[\"a\n\t\tb\"]" : String) ≠ "[\"a\n\tb\"]" :=
  ⟨rfl, rfl, by decide⟩

theorem bodyStep_string (k : ScanState → List Char → Except PErr (List Message))
    (st : ScanState) (s tail : List Char)
    (hstack : st.stack > 0) (hs : ∀ x ∈ s, ¬ x = '"') :
    bodyStep k st '"' (s ++ '"' :: tail) =
      k { st with acc := st.acc ++ '"' :: (s ++ ['"']) } tail := by
  have hspan : spanWhileP (fun x => ¬ x = '"') (s ++ '"' :: tail) =
      some (s, '"' :: tail) :=
    spanWhileP_eq s '"' tail (by intro x hx; simpa using hs x hx) (by simp)
  simp only [bodyStep, if_neg (by decide : ¬ ('"' = '\x7b' ∨ '"' = '[')),
    if_neg (by decide : ¬ ('"' = '\x7d' ∨ '"' = ']')), if_pos hstack,
    if_pos rfl, hspan]
  simp

theorem bodyStep_other (k : ScanState → List Char → Except PErr (List Message))
    (st : ScanState) (c : Char) (cs : List Char)
    (h1 : ¬ (c = '\x7b' ∨ c = '[')) (h2 : ¬ (c = '\x7d' ∨ c = ']'))
    (h3 : ¬ c = '"') (h4 : ¬ c = '#')
    (h5 : ¬ (c = '/' ∧ cs.head? = some '/'))
    (h6 : isObjWs c = false) :
    bodyStep k st c cs = k { st with acc := st.acc ++ [c] } cs := by
  by_cases hs : st.stack > 0
  · simp only [bodyStep, if_neg h1, if_neg h2, if_pos hs, if_neg h3, if_neg h4]
    split
    case _ => simp_all
    case _ => rw [if_neg (by simp [h6])]
  · exact bodyStep_plain k st c cs h1 h2 hs

/-- The head character of the text following a chunk sequence never turns a
preceding `/` into a comment opener: it is the terminating newline, a
quote, or the first plain character of the next chunk, which the adjacency
condition of `chunksOKB` controls. -/
theorem renderChunks_head_slash (chunks : List MinChunk) (tail : List Char)
    (htl : tail.head? = some '\n')
    (hadj : headIsSlash chunks = false) :
    ¬ (renderChunks chunks ++ tail).head? = some '/' := by
  cases chunks with
  | nil =>
    cases tail with
    | nil => simp at htl
    | cons t ts =>
      simp at htl
      simp [renderChunks, htl]
  | cons ch rest =>
    cases ch with
    | plain c =>
      simp only [renderChunks, List.map_cons, List.flatten_cons, renderChunk]
      simp only [headIsSlash, decide_eq_false_iff_not] at hadj
      simp [hadj]
    | qstr s =>
      simp [renderChunks, renderChunk]

set_option maxHeartbeats 1000000 in
theorem scanLoop_copy_chunks : ∀ (chunks : List MinChunk) (st : ScanState)
    (rest : List Char) (n : Nat),
    st.isTab = true → chunksOKB st.stack chunks = true →
    (renderChunks chunks ++ '\n' :: rest).length < n →
    scanLoop n st (renderChunks chunks ++ '\n' :: rest) =
      scanLoop n
        ⟨depthAfter st.stack chunks, st.label, st.isTab,
          st.acc ++ renderChunks chunks, st.msgs⟩ ('\n' :: rest) := by
  intro chunks
  induction chunks with
  | nil =>
    intro st rest n _ _ _
    simp [renderChunks, depthAfter]
  | cons ch chrest ih =>
    intro st rest n ht hok hlen
    cases ch with
    | plain c =>
      simp only [chunksOKB, Bool.and_eq_true] at hok
      obtain ⟨⟨⟨⟨hws, hhash⟩, hquote⟩, hadj⟩, hrest⟩ := hok
      have hcn : ¬ c = '\n' := by
        intro h
        rw [h] at hws
        exact absurd hws (by decide)
      have hshape : renderChunks (.plain c :: chrest) ++ '\n' :: rest =
          c :: (renderChunks chrest ++ '\n' :: rest) := by
        simp [renderChunks, renderChunk]
      rw [hshape]
      cases n with
      | zero => simp at hlen
      | succ n2 =>
        rw [scanLoop_cons_body n2 st c _ ht hcn]
        by_cases hbr1 : c = '\x7b' ∨ c = '['
        · rw [show bodyStep (scanLoop n2) st c (renderChunks chrest ++ '\n' :: rest) =
              scanLoop n2 ⟨st.stack + 1, st.label, st.isTab, st.acc ++ [c],
                st.msgs⟩ (renderChunks chrest ++ '\n' :: rest) by
                simp only [bodyStep, if_pos hbr1]]
          rw [ih ⟨st.stack + 1, st.label, st.isTab, st.acc ++ [c], st.msgs⟩ rest n2
            (by simpa using ht)
            (by
              dsimp only
              have hdelta : chunkDelta c = 1 := by
                simp [chunkDelta, hbr1]
              rw [show st.stack + 1 = st.stack + chunkDelta c by rw [hdelta]]
              exact hrest)
            (by simp [hshape] at hlen ⊢; omega)]
          dsimp only
          rw [show (st.acc ++ [c]) ++ renderChunks chrest =
              st.acc ++ renderChunks (.plain c :: chrest) by
                simp [renderChunks, renderChunk]]
          have hdelta : chunkDelta c = 1 := by simp [chunkDelta, hbr1]
          rw [show depthAfter (st.stack + 1) chrest =
              depthAfter st.stack (.plain c :: chrest) by
                simp [depthAfter, hdelta]]
          exact scanLoop_fuel_irrel ('\n' :: rest).length n2 (n2 + 1) _ _
            (Nat.le_refl _) (by simp [hshape] at hlen ⊢; omega)
            (by simp [hshape] at hlen ⊢; omega)
        · by_cases hbr2 : c = '\x7d' ∨ c = ']'
          · rw [show bodyStep (scanLoop n2) st c (renderChunks chrest ++ '\n' :: rest) =
                scanLoop n2 ⟨st.stack - 1, st.label, st.isTab, st.acc ++ [c],
                  st.msgs⟩ (renderChunks chrest ++ '\n' :: rest) by
                  simp only [bodyStep, if_neg hbr1, if_pos hbr2]]
            rw [ih ⟨st.stack - 1, st.label, st.isTab, st.acc ++ [c], st.msgs⟩ rest n2
              (by simpa using ht)
              (by
                dsimp only
                have hdelta : chunkDelta c = -1 := by
                  simp [chunkDelta, hbr1, hbr2]
                rw [show st.stack - 1 = st.stack + chunkDelta c by
                  rw [hdelta]; omega]
                exact hrest)
              (by simp [hshape] at hlen ⊢; omega)]
            dsimp only
            rw [show (st.acc ++ [c]) ++ renderChunks chrest =
                st.acc ++ renderChunks (.plain c :: chrest) by
                  simp [renderChunks, renderChunk]]
            have hdelta : chunkDelta c = -1 := by simp [chunkDelta, hbr1, hbr2]
            rw [show depthAfter (st.stack - 1) chrest =
                depthAfter st.stack (.plain c :: chrest) by
                  simp only [depthAfter, hdelta, Int.sub_eq_add_neg]]
            exact scanLoop_fuel_irrel ('\n' :: rest).length n2 (n2 + 1) _ _
              (Nat.le_refl _) (by simp [hshape] at hlen ⊢; omega)
              (by simp [hshape] at hlen ⊢; omega)
          · have hadj2 : headIsSlash chrest = false ∨ ¬ c = '/' := by
              by_cases hc : c = '/'
              · left
                subst hc
                simpa using hadj
              · right
                exact hc
            have h5 : ¬ (c = '/' ∧
                (renderChunks chrest ++ '\n' :: rest).head? = some '/') := by
              rintro ⟨rfl, hh⟩
              rcases hadj2 with hm | hm
              · exact renderChunks_head_slash chrest ('\n' :: rest) rfl hm hh
              · exact hm rfl
            rw [bodyStep_other _ _ _ _ hbr1 hbr2 (by simpa using hquote)
              (by simpa using hhash) h5 (by simpa using hws)]
            rw [ih ⟨st.stack, st.label, st.isTab, st.acc ++ [c], st.msgs⟩ rest n2
              (by simpa using ht)
              (by
                dsimp only
                have hdelta : chunkDelta c = 0 := by
                  simp [chunkDelta, hbr1, hbr2]
                rw [show st.stack = st.stack + chunkDelta c by
                  rw [hdelta]; omega]
                exact hrest)
              (by simp [hshape] at hlen ⊢; omega)]
            dsimp only
            rw [show (st.acc ++ [c]) ++ renderChunks chrest =
                st.acc ++ renderChunks (.plain c :: chrest) by
                  simp [renderChunks, renderChunk]]
            have hdelta : chunkDelta c = 0 := by simp [chunkDelta, hbr1, hbr2]
            rw [show depthAfter st.stack chrest =
                depthAfter st.stack (.plain c :: chrest) by
                  simp only [depthAfter, hdelta, add_zero]]
            exact scanLoop_fuel_irrel ('\n' :: rest).length n2 (n2 + 1) _ _
              (Nat.le_refl _) (by simp [hshape] at hlen ⊢; omega)
              (by simp [hshape] at hlen ⊢; omega)
    | qstr s =>
      simp only [chunksOKB, Bool.and_eq_true] at hok
      obtain ⟨⟨hd, hall⟩, hrest⟩ := hok
      have hstack : st.stack > 0 := by simpa using hd
      have hchars : ∀ x ∈ s, ¬ x = '"' := by
        intro x hx
        have := List.all_eq_true.mp hall x hx
        simp at this
        exact this.1
      have hshape : renderChunks (.qstr s :: chrest) ++ '\n' :: rest =
          '"' :: (s ++ '"' :: (renderChunks chrest ++ '\n' :: rest)) := by
        simp [renderChunks, renderChunk]
      rw [hshape]
      cases n with
      | zero => simp at hlen
      | succ n2 =>
        rw [scanLoop_cons_body n2 st '"' _ ht (by decide),
          bodyStep_string _ _ s _ hstack hchars,
          ih ⟨st.stack, st.label, st.isTab,
            st.acc ++ '"' :: (s ++ ['"']), st.msgs⟩ rest n2
            (by simpa using ht) (by dsimp only; exact hrest)
            (by simp [hshape] at hlen ⊢; omega)]
        dsimp only
        rw [show (st.acc ++ '"' :: (s ++ ['"'])) ++ renderChunks chrest =
            st.acc ++ renderChunks (.qstr s :: chrest) by
              simp [renderChunks, renderChunk]]
        rw [show depthAfter st.stack chrest =
            depthAfter st.stack (.qstr s :: chrest) by simp [depthAfter]]
        exact scanLoop_fuel_irrel ('\n' :: rest).length n2 (n2 + 1) _ _
          (Nat.le_refl _) (by simp [hshape] at hlen ⊢; omega)
          (by simp [hshape] at hlen ⊢; omega)

theorem newlineStep_indent_blank
    (k : ScanState → List Char → Except PErr (List Message))
    (st : ScanState) (rs : List Char) :
    newlineStep k st ('\t' :: '\n' :: rs) = k { st with isTab := true } ('\n' :: rs) := by
  have hspan : spanWhileP isSpaceTab ('\t' :: '\n' :: rs) =
      some (['\t'], '\n' :: rs) :=
    spanWhileP_eq ['\t'] '\n' rs (by intro x hx; simp at hx; rw [hx]; rfl)
      (by decide)
  rw [newlineStep]
  case x_3 =>
    intro tail h1 _
    exact absurd h1 (by decide)
  rw [if_pos (by decide), hspan]
  dsimp only
  rw [if_pos rfl]

theorem scanLoop_finish (st : ScanState) (n : Nat) (h : 2 < n) :
    scanLoop n st ['\n', '\n'] = .ok (flushLabel st).msgs := by
  cases n with
  | zero => omega
  | succ n2 =>
    rw [scanLoop_cons_nl, newlineStep_plain _ _ _ _ (by decide) (by simp)]
    cases n2 with
    | zero => omega
    | succ n3 =>
      rw [scanLoop_cons_nl, newlineStep_nil, scanLoop_nil]
      simp only [finishScan, flushLabel_mk_isTab]

theorem not_objWs_props (c : Char) (h : isObjWs c = false) :
    isSpaceTab c = false ∧ ¬ c = '\n' := by
  constructor
  · cases hst : isSpaceTab c
    · rfl
    · rcases (show c = '\t' ∨ c = ' ' by simpa [isSpaceTab] using hst) with rfl | rfl
      · exact absurd h (by decide)
      · exact absurd h (by decide)
  · rintro rfl
    exact absurd h (by decide)

/-- C8 amended: re-minifying an already-minified single-line structured
literal yields the same bytes.  A minified single-line literal is
characterized by `chunksOKB 0`: a sequence of plain characters (no
whitespace, no `#`, no quote, no adjacent `/` pair) and complete
double-quoted strings at positive bracket depth with no quote or newline in
their contents — exactly the shapes the scanner emits for a single-line
literal.  Compiling such text again as a (single-line) section body copies
it byte for byte.  (The restriction to single-line literals is forced by
the counterexample: a double-quoted string that spans a line break makes
minification non-idempotent.) -/
theorem c8_amended (l : String) (chunks : List MinChunk)
    (hl : goodLabelB l.data = true) (hchunks : chunksOKB 0 chunks = true) :
    processPrompt (l ++ ":\n\t" ++ String.mk (renderChunks chunks) ++ "\n") =
      .ok [⟨l, String.mk (renderChunks chunks)⟩] := by
  have hdata : (l ++ ":\n\t" ++ String.mk (renderChunks chunks) ++ "\n").data =
      l.data ++ ':' :: '\n' :: '\t' :: (renderChunks chunks ++ ['\n']) := by
    simp [String.data_append]
  rw [processPrompt, processPromptL, hdata]
  simp only [List.cons_append]
  have hshape : (l.data ++ ':' :: '\n' :: '\t' ::
        (renderChunks chunks ++ ['\n'])) ++ ['\n'] =
      l.data ++ ':' :: '\n' :: '\t' :: (renderChunks chunks ++ '\n' :: ['\n']) := by
    simp
  rw [hshape]
  have hmain : ∀ n,
      (l.data ++ ':' :: '\n' :: '\t' ::
        (renderChunks chunks ++ '\n' :: ['\n'])).length + 1 < n →
      scanLoop n initState ('\n' :: (l.data ++ ':' :: '\n' :: '\t' ::
        (renderChunks chunks ++ '\n' :: ['\n']))) =
        .ok [⟨l, String.mk (renderChunks chunks)⟩] := by
    intro n hn
    cases l with
    | mk ld =>
    cases ld with
    | nil => simp [goodLabelB] at hl
    | cons w ws =>
      have hword : ∀ c ∈ w :: ws, isWordChar c = true := by
        simp only [goodLabelB, Bool.and_eq_true, List.all_eq_true] at hl
        exact fun c hc => hl.2 c hc
      obtain ⟨hwst, hwn, hwsl⟩ := isWordChar_props w (hword w (by simp))
      simp only [List.length_cons, List.length_append] at hn
      cases n with
      | zero => omega
      | succ n2 =>
        rw [scanLoop_cons_nl]
        rw [show ((String.mk (w :: ws)).data ++ ':' :: '\n' :: '\t' ::
            (renderChunks chunks ++ '\n' :: ['\n'])) =
          w :: (ws ++ ':' :: '\n' :: ('\t' ::
            (renderChunks chunks ++ '\n' :: ['\n']))) by simp]
        rw [newlineStep_plain _ _ _ _ hwst (by rintro ⟨rfl, -⟩; exact hwsl rfl)]
        cases n2 with
        | zero => omega
        | succ n3 =>
          rw [scanLoop_cons_label n3 _ w _ rfl hwn,
            show flushLabel ⟨initState.stack, initState.label, false,
                initState.acc, initState.msgs⟩ =
              (⟨0, "", false, [], []⟩ : ScanState) from rfl,
            labelStep_role _ _ _ _ _ hword]
          cases n3 with
          | zero => omega
          | succ n4 =>
            rw [scanLoop_cons_nl]
            cases hch : chunks with
            | nil =>
              rw [show renderChunks [] = ([] : List Char) from rfl]
              rw [show (([] : List Char) ++ '\n' :: ['\n']) = '\n' :: ['\n']
                from rfl]
              rw [newlineStep_indent_blank]
              rw [scanLoop_finish _ _ (by omega)]
              rfl
            | cons ch chrest =>
              cases ch with
              | qstr s => rw [hch] at hchunks; simp [chunksOKB] at hchunks
              | plain c =>
                rw [hch] at hchunks hn
                simp only [chunksOKB, Bool.and_eq_true] at hchunks
                obtain ⟨⟨⟨⟨hws2, hhash⟩, hquote⟩, hadj⟩, hrest⟩ := hchunks
                have hws3 : isObjWs c = false := by simpa using hws2
                obtain ⟨hcst, hcn⟩ := not_objWs_props c hws3
                have hrc : ¬ (c = '/' ∧
                    (renderChunks chrest ++ '\n' :: ['\n']).head? = some '/') := by
                  rintro ⟨rfl, hh⟩
                  by_cases hsl : headIsSlash chrest = false
                  · exact renderChunks_head_slash chrest ('\n' :: ['\n']) rfl hsl hh
                  · simp [hsl] at hadj
                rw [show ('\t' :: (renderChunks (.plain c :: chrest) ++
                    '\n' :: ['\n'])) = ('\t' :: []) ++ c ::
                    (renderChunks chrest ++ '\n' :: ['\n']) by
                      simp [renderChunks, renderChunk]]
                rw [newlineStep_indent _ _ _ _ _ _ (by decide) (by simp)
                  hcst hcn hrc (by simpa using mk_ne_empty w ws)]
                rw [show c :: (renderChunks chrest ++ '\n' :: ['\n']) =
                    renderChunks (.plain c :: chrest) ++ '\n' :: ['\n'] by
                      simp [renderChunks, renderChunk]]
                rw [scanLoop_copy_chunks (.plain c :: chrest)
                  ⟨0, String.mk (w :: ws), true, [], []⟩ ['\n'] n4 rfl
                  (by
                    simp only [chunksOKB, Bool.and_eq_true]
                    exact ⟨⟨⟨⟨hws2, hhash⟩, hquote⟩, hadj⟩, hrest⟩)
                  (by
                    simp only [List.length_cons, List.length_append,
                      List.length_nil] at hn ⊢
                    omega)]
                rw [scanLoop_finish _ _ (by
                  simp only [List.length_cons, List.length_append,
                    List.length_nil] at hn
                  omega)]
                rfl
  exact hmain _ (by simp; omega)

/-- C8 witness: the amended theorem applied to the concrete minified
literal `[{"a b":1},{"c":2}]`, and the evaluation of the compiler on the
document embedding it. -/
theorem c8_amended_witness :
    processPrompt ("x" ++ ":\n\t" ++ String.mk (renderChunks
      [.plain '[', .plain '\x7b', .qstr "a b".data, .plain ':', .plain '1',
       .plain '\x7d', .plain ',', .plain '\x7b', .qstr "c".data, .plain ':',
       .plain '2', .plain '\x7d', .plain ']']) ++ "\n") =
      .ok [⟨"x", String.mk (renderChunks
        [.plain '[', .plain '\x7b', .qstr "a b".data, .plain ':', .plain '1',
         .plain '\x7d', .plain ',', .plain '\x7b', .qstr "c".data, .plain ':',
         .plain '2', .plain '\x7d', .plain ']'])⟩] ∧
    processPrompt "x:\n\t[\x7b\"a b\":1\x7d,\x7b\"c\":2\x7d]\n" =
      .ok [⟨"x", "[\x7b\"a b\":1\x7d,\x7b\"c\":2\x7d]"⟩] :=
  ⟨c8_amended "x" _ (by decide) (by decide), rfl⟩

/-! ## C3: tier barrier, store visibility and first-error abort -/

theorem get?_set_cases {α : Type} {l : List α} {i j : Nat} {a b : α}
    (h : (l.set i a).get? j = some b) :
    (j = i ∧ b = a) ∨ l.get? j = some b := by
  induction l generalizing i j with
  | nil => simp [List.set] at h
  | cons x xs ih =>
    cases i with
    | zero =>
      cases j with
      | zero =>
        simp only [List.set, List.get?] at h
        exact Or.inl ⟨rfl, (Option.some.inj h).symm⟩
      | succ j =>
        simp only [List.set, List.get?] at h
        exact Or.inr h
    | succ i =>
      cases j with
      | zero =>
        simp only [List.set, List.get?] at h
        exact Or.inr h
      | succ j =>
        simp only [List.set, List.get?] at h
        rcases ih h with ⟨rfl, rfl⟩ | hold
        · exact Or.inl ⟨rfl, rfl⟩
        · exact Or.inr hold

theorem get?_replicate_cases {α : Type} {n i : Nat} {a b : α}
    (h : (List.replicate n a).get? i = some b) : b = a := by
  induction n generalizing i with
  | zero => simp [List.replicate] at h
  | succ n ih =>
    cases i with
    | zero =>
      simp only [List.replicate, List.get?] at h
      exact (Option.some.inj h).symm
    | succ i =>
      simp only [List.replicate, List.get?] at h
      exact ih h

/-- Every orchestrator step starts from a state that has not yet returned. -/
theorem bstep_result_none {batch : List (List DocTask)} {s : BatchState}
    {e : BEvent} {s' : BatchState} (h : BStep batch s e s') : s.result = none := by
  cases h <;> assumption

/-- The tier index never decreases along one step. -/
theorem bstep_tier_le {batch : List (List DocTask)} {s : BatchState}
    {e : BEvent} {s' : BatchState} (h : BStep batch s e s') : s.tier ≤ s'.tier := by
  cases h
  · exact Nat.le_refl _
  · exact Nat.le_refl _
  · exact Nat.le_succ _
  · exact Nat.le_refl _
  · exact Nat.le_refl _

/-- The tier index never decreases along an execution. -/
theorem breach_tier_le {batch : List (List DocTask)} {s0 : BatchState}
    {tr : List BEvent} {s : BatchState} (h : BReach batch s0 tr s) :
    s0.tier ≤ s.tier := by
  induction h with
  | refl => exact Nat.le_refl _
  | step h1 h2 ih => exact Nat.le_trans ih (bstep_tier_le h2)

/-- A state that has returned makes no further step: the trace ends there. -/
theorem breach_of_result_some {batch : List (List DocTask)} {s0 : BatchState}
    {tr : List BEvent} {s : BatchState} {r : Option String}
    (h : BReach batch s0 tr s) (hr : s0.result = some r) :
    tr = [] ∧ s = s0 := by
  induction h with
  | refl => exact ⟨rfl, rfl⟩
  | step h1 h2 ih =>
    obtain ⟨rfl, rfl⟩ := ih
    exact absurd (bstep_result_none h2) (by rw [hr]; exact fun hx => Option.noConfusion hx)

/-- A `start` event carries the tier of the state it fires from, which the
step leaves unchanged. -/
theorem bstep_start_inv {batch : List (List DocTask)} {s : BatchState}
    {t i : Nat} {s' : BatchState} (h : BStep batch s (.start t i) s') :
    t = s.tier ∧ s'.tier = s.tier := by
  cases h
  exact ⟨rfl, rfl⟩

/-- A `finish` event carries the tier of the state it fires from, which the
step leaves unchanged. -/
theorem bstep_finish_inv {batch : List (List DocTask)} {s : BatchState}
    {t i : Nat} {s' : BatchState} (h : BStep batch s (.finish t i) s') :
    t = s.tier ∧ s'.tier = s.tier := by
  cases h
  exact ⟨rfl, rfl⟩

/-- A `ret (some e)` step can only be `retErr`: the returned error is the
head of the collected errors, and it is recorded in the result. -/
theorem bstep_ret_some {batch : List (List DocTask)} {s : BatchState}
    {e : String} {s' : BatchState} (h : BStep batch s (.ret (some e)) s') :
    s.errs.head? = some e ∧ s'.result = some (some e) ∧ s'.tier = s.tier := by
  cases h with
  | retErr hres hall herr => exact ⟨herr, rfl, rfl⟩

/-- Every `finish` or `start` event of an execution belongs to a tier at or
above the tier of the execution's initial state. -/
theorem breach_events_ge {batch : List (List DocTask)} {s0 : BatchState}
    {v : List BEvent} {s : BatchState} (h : BReach batch s0 v s) :
    (∀ t i, BEvent.finish t i ∈ v → s0.tier ≤ t) ∧
    (∀ t i, BEvent.start t i ∈ v → s0.tier ≤ t) := by
  induction h with
  | refl =>
    exact ⟨fun t i hm => absurd hm (List.not_mem_nil _),
      fun t i hm => absurd hm (List.not_mem_nil _)⟩
  | step h1 h2 ih =>
    refine ⟨?_, ?_⟩
    · intro t i hm
      rcases List.mem_append.mp hm with hm | hm
      · exact ih.1 t i hm
      · have heq := List.mem_singleton.mp hm
        subst heq
        obtain ⟨h3, -⟩ := bstep_finish_inv h2
        have h4 := breach_tier_le h1
        omega
    · intro t i hm
      rcases List.mem_append.mp hm with hm | hm
      · exact ih.2 t i hm
      · have heq := List.mem_singleton.mp hm
        subst heq
        obtain ⟨h3, -⟩ := bstep_start_inv h2
        have h4 := breach_tier_le h1
        omega

/-- Any occurrence of an event inside an execution trace splits the
execution at that event. -/
theorem breach_split {batch : List (List DocTask)} {s0 : BatchState} :
    ∀ {tr : List BEvent} {s : BatchState}, BReach batch s0 tr s →
      ∀ u e v, tr = u ++ e :: v →
      ∃ s1 s2, BReach batch s0 u s1 ∧ BStep batch s1 e s2 ∧
        BReach batch s2 v s := by
  intro tr s h
  induction h with
  | refl =>
    intro u e v huv
    cases u <;> exact List.noConfusion huv
  | @step tra s1 s2 e0 h1 h2 ih =>
    intro u e v huv
    rcases List.eq_nil_or_concat v with rfl | ⟨v', e2, rfl⟩
    · obtain ⟨rfl, he⟩ := List.append_inj' huv rfl
      have he' := (List.cons.injEq _ _ _ _ ▸ he).1
      subst he'
      exact ⟨_, _, h1, h2, BReach.refl _⟩
    · have huv2 : tra ++ [e0] = (u ++ e :: v') ++ [e2] := by
        rw [huv, List.concat_eq_append]
        simp
      obtain ⟨h3, h4⟩ := List.append_inj' huv2 rfl
      have he2 := (List.cons.injEq _ _ _ _ ▸ h4).1
      obtain ⟨sa, sb, hu, hst, hv⟩ := ih u e v' h3
      subst he2
      rw [List.concat_eq_append]
      exact ⟨sa, sb, hu, hst, BReach.step hv h2⟩

/-- Main invariant of the batch orchestrator, from the initial state: every
`start` event belongs to a tier at or below the current one; every tier below
the current one has fully finished; the phase vector tracks the current
tier's documents; a `done` phase witnesses a recorded `finish` event; and a
`ret` event is recorded in the result. -/
theorem breach_invariant {batch : List (List DocTask)} {σ : Store}
    {tr : List BEvent} {s : BatchState}
    (h : BReach batch (initBatch batch σ) tr s) :
    (∀ t i, BEvent.start t i ∈ tr → t ≤ s.tier) ∧
    (∀ t, t < s.tier → ∀ i, i < (tierDocs batch t).length →
      BEvent.finish t i ∈ tr) ∧
    s.phases.length = (tierDocs batch s.tier).length ∧
    (∀ i, s.phases.get? i = some DocPhase.done → BEvent.finish s.tier i ∈ tr) ∧
    (∀ r, BEvent.ret r ∈ tr → s.result = some r) := by
  have aux : ∀ (s0 : BatchState) (tr' : List BEvent) (s' : BatchState),
      BReach batch s0 tr' s' → s0 = initBatch batch σ →
      (∀ t i, BEvent.start t i ∈ tr' → t ≤ s'.tier) ∧
      (∀ t, t < s'.tier → ∀ i, i < (tierDocs batch t).length →
        BEvent.finish t i ∈ tr') ∧
      s'.phases.length = (tierDocs batch s'.tier).length ∧
      (∀ i, s'.phases.get? i = some DocPhase.done →
        BEvent.finish s'.tier i ∈ tr') ∧
      (∀ r, BEvent.ret r ∈ tr' → s'.result = some r) := by
    intro s0 tr' s' h0
    induction h0 with
    | refl =>
      intro hs0
      subst hs0
      refine ⟨?_, ?_, ?_, ?_, ?_⟩
      · intro t i hm
        exact absurd hm (List.not_mem_nil _)
      · intro t ht
        exact absurd ht (by simp [initBatch])
      · simp [initBatch]
      · intro i hdone
        have h2 : (List.replicate (tierDocs batch 0).length
            DocPhase.notStarted).get? i = some DocPhase.done := hdone
        exact absurd (get?_replicate_cases h2) (by decide)
      · intro r hm
        exact absurd hm (List.not_mem_nil _)
    | @step tra s1 s2 e0 h1 h2 ih =>
      intro hs0
      obtain ⟨ih1, ih2, ih3, ih4, ih5⟩ := ih hs0
      cases h2 with
      | @start i hres hph =>
        refine ⟨?_, ?_, ?_, ?_, ?_⟩
        · intro t j hm
          rcases List.mem_append.mp hm with hm | hm
          · exact ih1 t j hm
          · have heq := List.mem_singleton.mp hm
            have h3 : t = s1.tier := (BEvent.start.injEq _ _ _ _ ▸ heq).1
            exact Nat.le_of_eq h3
        · intro t ht j hj
          exact List.mem_append.mpr (Or.inl (ih2 t ht j hj))
        · rw [List.length_set]
          exact ih3
        · intro j hdone
          rcases get?_set_cases hdone with ⟨rfl, heq⟩ | hold
          · exact absurd heq (by decide)
          · exact List.mem_append.mpr (Or.inl (ih4 j hold))
        · intro r hm
          rcases List.mem_append.mp hm with hm | hm
          · exact ih5 r hm
          · exact absurd (List.mem_singleton.mp hm) (by simp)
      | @finish i d hres hph hd =>
        refine ⟨?_, ?_, ?_, ?_, ?_⟩
        · intro t j hm
          rcases List.mem_append.mp hm with hm | hm
          · exact ih1 t j hm
          · exact absurd (List.mem_singleton.mp hm) (by simp)
        · intro t ht j hj
          exact List.mem_append.mpr (Or.inl (ih2 t ht j hj))
        · rw [List.length_set]
          exact ih3
        · intro j hdone
          rcases get?_set_cases hdone with ⟨rfl, -⟩ | hold
          · exact List.mem_append.mpr (Or.inr (by simp))
          · exact List.mem_append.mpr (Or.inl (ih4 j hold))
        · intro r hm
          rcases List.mem_append.mp hm with hm | hm
          · exact ih5 r hm
          · exact absurd (List.mem_singleton.mp hm) (by simp)
      | advance hres hall herr hlt =>
        refine ⟨?_, ?_, ?_, ?_, ?_⟩
        · intro t j hm
          rcases List.mem_append.mp hm with hm | hm
          · exact Nat.le_trans (ih1 t j hm) (Nat.le_succ _)
          · exact absurd (List.mem_singleton.mp hm) (by simp)
        · intro t ht j hj
          have ht2 : t < s1.tier + 1 := ht
          by_cases hlt2 : t < s1.tier
          · exact List.mem_append.mpr (Or.inl (ih2 t hlt2 j hj))
          · have hteq : t = s1.tier := by omega
            subst hteq
            have hjlt : j < s1.phases.length := by rw [ih3]; exact hj
            obtain ⟨p, hp⟩ : ∃ p, s1.phases.get? j = some p := by
              cases hg : s1.phases.get? j with
              | none =>
                rw [List.get?_eq_none] at hg
                omega
              | some p => exact ⟨p, rfl⟩
            have hpd : p = DocPhase.done := hall p (List.get?_mem hp)
            subst hpd
            exact List.mem_append.mpr (Or.inl (ih4 j hp))
        · simp [tierDocs]
        · intro j hdone
          have h2 : (List.replicate (tierDocs batch (s1.tier + 1)).length
              DocPhase.notStarted).get? j = some DocPhase.done := hdone
          exact absurd (get?_replicate_cases h2) (by decide)
        · intro r hm
          rcases List.mem_append.mp hm with hm | hm
          · exact ih5 r hm
          · exact absurd (List.mem_singleton.mp hm) (by simp)
      | retOk hres hend =>
        refine ⟨?_, ?_, ?_, ?_, ?_⟩
        · intro t j hm
          rcases List.mem_append.mp hm with hm | hm
          · exact ih1 t j hm
          · exact absurd (List.mem_singleton.mp hm) (by simp)
        · intro t ht j hj
          exact List.mem_append.mpr (Or.inl (ih2 t ht j hj))
        · exact ih3
        · intro j hdone
          exact List.mem_append.mpr (Or.inl (ih4 j hdone))
        · intro r hm
          rcases List.mem_append.mp hm with hm | hm
          · exact absurd (ih5 r hm) (by rw [hres]; exact fun hx => Option.noConfusion hx)
          · have heq := List.mem_singleton.mp hm
            have h3 : r = none := BEvent.ret.injEq _ _ ▸ heq
            subst h3
            rfl
      | @retErr e hres hall herr =>
        refine ⟨?_, ?_, ?_, ?_, ?_⟩
        · intro t j hm
          rcases List.mem_append.mp hm with hm | hm
          · exact ih1 t j hm
          · exact absurd (List.mem_singleton.mp hm) (by simp)
        · intro t ht j hj
          exact List.mem_append.mpr (Or.inl (ih2 t ht j hj))
        · exact ih3
        · intro j hdone
          exact List.mem_append.mpr (Or.inl (ih4 j hdone))
        · intro r hm
          rcases List.mem_append.mp hm with hm | hm
          · exact absurd (ih5 r hm) (by rw [hres]; exact fun hx => Option.noConfusion hx)
          · have heq := List.mem_singleton.mp hm
            have h3 : r = some e := BEvent.ret.injEq _ _ ▸ heq
            subst h3
            rfl
  exact aux _ _ _ h rfl

/-- Store-visibility invariant: if document `i0` of tier `t` establishes a
store property `P` and every document of the batch preserves `P`, then `P`
holds of the shared store as soon as document `i0` has finished, and in
particular from every tier beyond `t` on. -/
theorem breach_store_property {batch : List (List DocTask)} {σ : Store}
    {P : Store → Prop} {t i0 : Nat} {d0 : DocTask}
    (hi0 : (tierDocs batch t).get? i0 = some d0)
    (hest : ∀ σ', P ((d0.run σ').1))
    (hpres : ∀ t' i' d', (tierDocs batch t').get? i' = some d' →
      ∀ σ', P σ' → P ((d'.run σ').1))
    {tr : List BEvent} {s : BatchState}
    (h : BReach batch (initBatch batch σ) tr s) :
    (t < s.tier → P s.store) ∧
    (s.tier = t → s.phases.get? i0 = some DocPhase.done → P s.store) := by
  have aux : ∀ (s0 : BatchState) (tr' : List BEvent) (s' : BatchState),
      BReach batch s0 tr' s' → s0 = initBatch batch σ →
      (t < s'.tier → P s'.store) ∧
      (s'.tier = t → s'.phases.get? i0 = some DocPhase.done → P s'.store) := by
    intro s0 tr' s' h0
    induction h0 with
    | refl =>
      intro hs0
      subst hs0
      constructor
      · intro ht
        exact absurd ht (by simp [initBatch])
      · intro hteq hdone
        have h2 : (List.replicate (tierDocs batch 0).length
            DocPhase.notStarted).get? i0 = some DocPhase.done := hdone
        exact absurd (get?_replicate_cases h2) (by decide)
    | @step tra s1 s2 e0 h1 h2 ih =>
      intro hs0
      obtain ⟨ih1, ih2⟩ := ih hs0
      cases h2 with
      | @start i hres hph =>
        constructor
        · intro ht
          exact ih1 ht
        · intro hteq hdone
          rcases get?_set_cases hdone with ⟨rfl, heq⟩ | hold
          · exact absurd heq (by decide)
          · exact ih2 hteq hold
      | @finish i d hres hph hd =>
        constructor
        · intro ht
          exact hpres _ _ _ hd _ (ih1 ht)
        · intro hteq hdone
          rcases get?_set_cases hdone with ⟨heq1, -⟩ | hold
          · subst heq1
            rw [hteq] at hd
            have hdd : d = d0 := Option.some.inj (hd.symm.trans hi0)
            subst hdd
            exact hest s1.store
          · exact hpres _ _ _ hd _ (ih2 hteq hold)
      | advance hres hall herr hlt =>
        constructor
        · intro ht
          have ht2 : t < s1.tier + 1 := ht
          by_cases hlt2 : t < s1.tier
          · exact ih1 hlt2
          · have hteq : s1.tier = t := by omega
            have hinv := breach_invariant (hs0 ▸ h1)
            have hlen : s1.phases.length = (tierDocs batch s1.tier).length :=
              hinv.2.2.1
            have hi0lt : i0 < (tierDocs batch t).length := by
              by_contra hge
              rw [List.get?_eq_none.mpr (Nat.le_of_not_lt hge)] at hi0
              exact Option.noConfusion hi0
            have hi0lt2 : i0 < s1.phases.length := by
              rw [hlen, hteq]
              exact hi0lt
            obtain ⟨p, hp⟩ : ∃ p, s1.phases.get? i0 = some p := by
              cases hg : s1.phases.get? i0 with
              | none =>
                rw [List.get?_eq_none] at hg
                omega
              | some p => exact ⟨p, rfl⟩
            have hpd : p = DocPhase.done := hall p (List.get?_mem hp)
            subst hpd
            exact ih2 hteq hp
        · intro hteq hdone
          have h3 : (List.replicate (tierDocs batch (s1.tier + 1)).length
              DocPhase.notStarted).get? i0 = some DocPhase.done := hdone
          exact absurd (get?_replicate_cases h3) (by decide)
      | retOk hres hend => exact ⟨ih1, ih2⟩
      | retErr hres hall herr => exact ⟨ih1, ih2⟩
  exact aux _ _ _ h rfl

/-- C3: in every execution of the batch orchestrator from the initial
state, (a) the tier barrier holds: whenever a document of tier `t1` starts,
every document of every earlier tier has already finished, and no finish of
an earlier tier can still occur afterwards; (b) store mutations are visible
across the barrier: if document `i0` of tier `t` establishes a store
property `P` (e.g. an annotation binding) and all documents preserve it,
then `P` holds of the shared store in all tiers after `t`, so every later
compilation observes the mutation; (c) abort on error: if the call returns
an error `e`, the trace ends at that return, `e` is the first error
collected from the error channel, and no document of any tier beyond the
returning tier was ever started. -/
theorem c3_tier_barrier (batch : List (List DocTask)) (σ : Store)
    (P : Store → Prop) (t i0 : Nat) (d0 : DocTask)
    (tr : List BEvent) (s : BatchState)
    (hreach : BReach batch (initBatch batch σ) tr s)
    (hi0 : (tierDocs batch t).get? i0 = some d0)
    (hest : ∀ σ', P ((d0.run σ').1))
    (hpres : ∀ t' i' d', (tierDocs batch t').get? i' = some d' →
      ∀ σ', P σ' → P ((d'.run σ').1)) :
    (∀ u t1 j v, tr = u ++ BEvent.start t1 j :: v →
      (∀ t2, t2 < t1 → ∀ i, i < (tierDocs batch t2).length →
        BEvent.finish t2 i ∈ u) ∧
      (∀ t2 i, BEvent.finish t2 i ∈ v → t1 ≤ t2)) ∧
    (t < s.tier → P s.store) ∧
    (∀ u e v, tr = u ++ BEvent.ret (some e) :: v →
      v = [] ∧ s.result = some (some e) ∧
      ∃ s1, BReach batch (initBatch batch σ) u s1 ∧
        s1.errs.head? = some e ∧
        ∀ t2 j, BEvent.start t2 j ∈ tr → t2 ≤ s1.tier) := by
  refine ⟨?_, ?_, ?_⟩
  · intro u t1 j v huv
    obtain ⟨s1, s2, hu, hst, hv⟩ := breach_split hreach u _ v huv
    obtain ⟨ht1, ht2⟩ := bstep_start_inv hst
    constructor
    · intro t2 hlt i hi
      exact (breach_invariant hu).2.1 t2 (by omega) i hi
    · intro t2 i hm
      have hge := (breach_events_ge hv).1 t2 i hm
      omega
  · exact (breach_store_property hi0 hest hpres hreach).1
  · intro u e v huv
    obtain ⟨s1, s2, hu, hst, hv⟩ := breach_split hreach u _ v huv
    obtain ⟨herr, hres2, htier2⟩ := bstep_ret_some hst
    obtain ⟨rfl, rfl⟩ := breach_of_result_some hv hres2
    refine ⟨rfl, hres2, s1, hu, herr, ?_⟩
    intro t2 j2 hm
    rw [huv] at hm
    rcases List.mem_append.mp hm with hm | hm
    · exact (breach_invariant hu).1 t2 j2 hm
    · rcases List.mem_cons.mp hm with heq | hm2
      · exact absurd heq (by simp)
      · exact absurd hm2 (List.not_mem_nil _)

/-- C3 witness: the barrier and visibility theorem applied to a concrete
two-tier execution of `wBatch`: tier 0's document finishes (and its
annotation write is in the store) before tier 1's document starts. -/
theorem c3_tier_barrier_witness :
    BEvent.finish 0 0 ∈ ([.start 0 0, .finish 0 0, .advance 0] : List BEvent) ∧
    storeGet [("x", "1")] "x" = "1" := by
  have h0 : BReach wBatch (initBatch wBatch []) [] (initBatch wBatch []) :=
    BReach.refl _
  have h1 := BReach.step h0 (@BStep.start wBatch _ 0 rfl rfl)
  have h2 := BReach.step h1 (@BStep.finish wBatch _ 0 wTask0 rfl rfl rfl)
  have h3 := BReach.step h2 (@BStep.advance wBatch _ rfl (by decide) rfl (by decide))
  have h4 := BReach.step h3 (@BStep.start wBatch _ 0 rfl rfl)
  have hpres : ∀ t' i' d', (tierDocs wBatch t').get? i' = some d' →
      ∀ σ', storeGet σ' "x" = "1" → storeGet ((d'.run σ').1) "x" = "1" := by
    intro t' i' d' hd σ' hP
    cases t' with
    | zero =>
      cases i' with
      | zero =>
        have hdd : wTask0 = d' := Option.some.inj hd
        subst hdd
        simp [wTask0, storeGet, storeSet, List.lookup]
      | succ n => simp [tierDocs, wBatch] at hd
    | succ t2 =>
      cases t2 with
      | zero =>
        cases i' with
        | zero =>
          have hdd : wTask1 = d' := Option.some.inj hd
          subst hdd
          exact hP
        | succ n => simp [tierDocs, wBatch] at hd
      | succ t3 => simp [tierDocs, wBatch, List.get?] at hd
  have h := c3_tier_barrier wBatch []
    (fun σ' => storeGet σ' "x" = "1") 0 0 wTask0
    [.start 0 0, .finish 0 0, .advance 0, .start 1 0]
    ⟨1, [.running], [("x", "1")], [], none⟩
    h4 rfl (fun σ' => by simp [wTask0, storeGet, storeSet, List.lookup]) hpres
  exact ⟨(h.1 [.start 0 0, .finish 0 0, .advance 0] 1 0 [] rfl).1 0
    (by decide) 0 (by decide), h.2.1 (by decide)⟩

end Poggers
